import Mathlib

/-!
Verification development for the DenizenVSCode syntax-highlighting extension
(`src/extension/src/extension.ts`).  The TypeScript tokenizer, folding engine
and incremental highlight cache are shallowly embedded below: lines are lists
of characters, JavaScript string primitives are modelled by executable helper
functions, the per-category decoration map is an insertion-ordered association
list, and the mutable scanning loops become index-passing recursions (fuelled
by an explicit step budget that strictly exceeds the number of iterations the
JavaScript loop can perform, since its index strictly increases each step).
-/

namespace Denizen

/-- Lines are modelled as lists of UTF-16-ish code units (Lean `Char`s). -/
abbrev Str := List Char

/-- Literal strings from the source, as character lists. -/
def str (s : String) : Str := s.toList

/-- JavaScript whitespace (the characters relevant to `.dsc` text). -/
def isWs (c : Char) : Bool :=
  c = ' ' || c = '\t' || c = '\n' || c = '\r' || c = '\x0b' || c = '\x0c'

/-- JavaScript `trimStart`. -/
def trimStartJs (s : Str) : Str := s.dropWhile isWs

/-- JavaScript `trimEnd` / `trimRight`. -/
def trimEndJs (s : Str) : Str := (s.reverse.dropWhile isWs).reverse

/-- JavaScript `trim`. -/
def trimJs (s : Str) : Str := trimEndJs (trimStartJs s)

/-- JavaScript `charAt`: out-of-range accesses yield the empty string, which
compares unequal to every character; the null character stands in for it. -/
def charAtJs (s : Str) (i : Int) : Char :=
  if 0 ≤ i ∧ i < (s.length : Int) then s.getD i.toNat (Char.ofNat 0) else Char.ofNat 0

/-- JavaScript `substring(a, b)`: clamps both indices to `[0, length]` and
swaps them when `a > b`. -/
def substringJs (s : Str) (a b : Int) : Str :=
  let len : Int := s.length
  let aC := min (max a 0) len
  let bC := min (max b 0) len
  let lo := (min aC bC).toNat
  let hi := (max aC bC).toNat
  (s.drop lo).take (hi - lo)

/-- JavaScript one-argument `substring(a)`. -/
def substringFromJs (s : Str) (a : Int) : Str := substringJs s a s.length

/-- JavaScript `indexOf(ch, from)` for a single character; `-1` when absent. -/
def indexOfFrom (s : Str) (c : Char) (start : Nat) : Int :=
  go s 0
where
  go : Str → Nat → Int
    | [], _ => -1
    | d :: rest, i => if i ≥ start ∧ d = c then (i : Int) else go rest (i + 1)

/-- JavaScript `indexOf(ch)`. -/
def indexOfJs (s : Str) (c : Char) : Int := indexOfFrom s c 0

/-- JavaScript `indexOf(sub, from)` for a substring pattern. -/
def indexOfSubFrom (s pat : Str) (start : Nat) : Int :=
  go s 0
where
  go : Str → Nat → Int
    | [], i => if pat = [] ∧ i ≥ start then (i : Int) else -1
    | d :: rest, i =>
      if i ≥ start ∧ pat.isPrefixOf (d :: rest) then (i : Int) else go rest (i + 1)

/-- JavaScript `indexOf(sub)`. -/
def indexOfSub (s pat : Str) : Int := indexOfSubFrom s pat 0

/-- JavaScript `includes(ch)` for a character. -/
def containsChar (s : Str) (c : Char) : Bool := s.contains c

/-- JavaScript `includes(sub, from)` for a substring. -/
def containsSubFrom (s pat : Str) (start : Nat) : Bool := indexOfSubFrom s pat start ≠ -1

/-- JavaScript `includes(sub)` for a substring. -/
def containsSub (s pat : Str) : Bool := indexOfSub s pat ≠ -1

/-- JavaScript `startsWith`. -/
def startsWithJs (s pat : Str) : Bool := pat.isPrefixOf s

/-- JavaScript `endsWith`. -/
def endsWithJs (s pat : Str) : Bool := pat.reverse.isPrefixOf s.reverse

/-- JavaScript `split(sep)` for a one-character separator (keeps empties). -/
def splitCharJs (sep : Char) : Str → List Str
  | [] => [[]]
  | c :: rest =>
    if c = sep then [] :: splitCharJs sep rest
    else
      match splitCharJs sep rest with
      | [] => [[c]]
      | seg :: segs => (c :: seg) :: segs

/-- ASCII `toLowerCase` (all identifiers compared in the source are ASCII). -/
def lowerStr (s : Str) : Str := s.map Char.toLower

/-- Render a character list back into a Lean `String` (category/table keys). -/
def ofStr (s : Str) : String := String.mk s

/-- JavaScript `replaceAll("~", "")` on a contextual label. -/
def removeTildes (s : Str) : Str := s.filter (fun c => c ≠ '~')

/-! ## Configuration and colour tables (extension.ts lines 11-18, 109-145, 314-426) -/

/-- The process-wide configuration the tokenizer reads: `headerSymbols`,
the behaviour flags, the custom text-colour map loaded from settings
(entries keyed `&[name]` like `loadAllColors` builds them), and
`highlightColorRef` (the colour strings recorded by `colorSet`). -/
structure Config where
  headerSymbols : Str := str "|+=#_@/"
  doInlineColors : Bool := true
  displayDarkColors : Bool := false
  customColors : List (String × String) := []
  highlightColorRef : List (String × String) := []
deriving Repr

/-- The fixed `tagSpecialColors` table. -/
def tagSpecialColorsBase : List (String × String) :=
  [("&0", "#000000"), ("black", "#000000"),
   ("&1", "#0000AA"), ("dark_blue", "#0000AA"),
   ("&2", "#00AA00"), ("dark_green", "#00AA00"),
   ("&3", "#00AAAA"), ("dark_aqua", "#00AAAA"),
   ("&4", "#AA0000"), ("dark_red", "#AA0000"),
   ("&5", "#AA00AA"), ("dark_purple", "#AA00AA"),
   ("&6", "#FFAA00"), ("gold", "#FFAA00"),
   ("&7", "#AAAAAA"), ("gray", "#AAAAAA"),
   ("&8", "#555555"), ("dark_gray", "#555555"),
   ("&9", "#5555FF"), ("blue", "#5555FF"),
   ("&a", "#55FF55"), ("green", "#55FF55"),
   ("&b", "#55FFFF"), ("aqua", "#55FFFF"),
   ("&c", "#FF5555"), ("red", "#FF5555"),
   ("&d", "#FF55FF"), ("light_purple", "#FF55FF"),
   ("&e", "#FFFF55"), ("yellow", "#FFFF55"),
   ("&f", "#FFFFFF"), ("white", "#FFFFFF"), ("&r", "#FFFFFF"), ("reset", "#FFFFFF")]

/-- Lookup in `tagSpecialColors` with the configuration's custom entries
layered over the base table (later assignments win in the JS object). -/
def tagSpecial (cfg : Config) (k : String) : Option String :=
  match cfg.customColors.lookup k with
  | some v => some v
  | none => tagSpecialColorsBase.lookup k

/-- The `formatCodes` table. -/
def formatCodes : List (String × String) :=
  [("&l", "bold"), ("bold", "bold"),
   ("&o", "italic"), ("italic", "italic"),
   ("&m", "strike"), ("strikethrough", "strike"),
   ("&n", "underline"), ("underline", "underline")]

/-- `isHex` (extension.ts lines 345-353). -/
def isHex (text : Str) : Bool := text.all (fun c => (str "abcdefABCDEF0123456789").contains c)

/-- Value of a single hexadecimal digit. -/
def hexDigit (c : Char) : Nat :=
  if '0' ≤ c ∧ c ≤ '9' then c.toNat - '0'.toNat
  else if 'a' ≤ c ∧ c ≤ 'f' then c.toNat - 'a'.toNat + 10
  else if 'A' ≤ c ∧ c ≤ 'F' then c.toNat - 'A'.toNat + 10
  else 0

/-- `parseInt(s, 16)` for the two-digit slices `fixDark` takes. -/
def hexPair (s : Str) : Nat :=
  match s with
  | [a, b] => hexDigit a * 16 + hexDigit b
  | _ => 0

/-- `getColorData` (extension.ts lines 355-367). -/
def getColorData (cfg : Config) (color : String) : Option String :=
  if startsWithJs (str color) (str "#") then some color
  else if startsWithJs (str color) (str "auto:#") then
    some (ofStr (substringFromJs (str color) ((str "auto:").length)))
  else
    match cfg.highlightColorRef.lookup color with
    | some known => some known
    | none => none

/-- `fixDark` (extension.ts lines 369-388); the `color == null` entry case is
handled by the callers, which only pass non-null colours. -/
def fixDark (cfg : Config) (color : String) : Option String :=
  if cfg.displayDarkColors then some color
  else
    let cs := str color
    let splitter := indexOfJs cs '|'
    let part := if splitter = -1 then cs else substringJs cs 0 splitter
    if ¬ startsWithJs part (str "#") ∨ part.length < 7 then some color
    else
      let red := hexPair (substringJs part 1 3)
      let green := hexPair (substringJs part 3 5)
      let blue := hexPair (substringJs part 5 7)
      if red < 64 ∧ green < 64 ∧ blue < 64 then none else some color

/-- `getTagColor` (extension.ts lines 390-423): resolves a tag interior to a
literal colour/format string, or `none` (JS `null`). -/
def getTagColor (cfg : Config) (tagText : Str) (preColor : String) : Option String :=
  if ¬ cfg.doInlineColors then none
  else
    let lowWord := lowerStr tagText
    match tagSpecial cfg (ofStr lowWord) with
    | some c => fixDark cfg c
    | none =>
      if startsWithJs lowWord (str "&color[") ∧ endsWithJs lowWord (str "]") ∧
          ¬ containsSub lowWord (str ".") then
        let colorText := substringJs lowWord ((str "&color[").length) (lowWord.length - 1)
        if colorText.length = 7 ∧ startsWithJs colorText (str "#") ∧
            isHex (substringFromJs colorText 1) then
          fixDark cfg (ofStr colorText)
        else none
      else
        match formatCodes.lookup (ofStr lowWord) with
        | some formatter =>
          match getColorData cfg preColor with
          | some rgb =>
            if formatter = "bold" then some (rgb ++ "|weight=bold")
            else if formatter = "italic" then some (rgb ++ "|style=italic")
            else if formatter = "strike" then some (rgb ++ "|strike=true")
            else if formatter = "underline" then some (rgb ++ "|underline=true")
            else none
          | none => none
        | none => none

/-! ## Spans, decoration events and the decoration map -/

/-- A single `addDecor` call: `(category, line, startColumn, endColumn)`.
Positions are integers because the scanners do JavaScript number
arithmetic (e.g. `decorateTag` starts its `lastDecor` at `-1`). -/
structure Ev where
  cat : String
  line : Int
  startC : Int
  endC : Int
deriving Repr, DecidableEq

/-- A `vscode.Range` as the highlight cache stores it. -/
structure Rng where
  startLine : Int
  startChar : Int
  endLine : Int
  endChar : Int
deriving Repr, DecidableEq

/-- The range an event pushes (always a single-line range in this code). -/
def Ev.toRng (e : Ev) : Rng := ⟨e.line, e.startC, e.line, e.endC⟩

/-- The `colorTypes` list (extension.ts lines 109-116): the enumerated
category names the configuration can register. -/
def colorTypesL : List String :=
  ["comment_header", "comment_normal", "comment_todo", "comment_code",
   "key", "key_inline", "command", "quote_double", "quote_single", "def_name",
   "event_line", "event_switch", "event_switch_value",
   "tag", "tag_dot", "tag_param", "tag_param_bracket",
   "bad_space", "space", "normal",
   "colons", "if_operators", "data_actions"]

/-- `ifOperators` (extension.ts line 273). -/
def ifOperatorsL : List Str :=
  [str "<", str ">", str "<=", str ">=", str "==", str "!=", str "||", str "&&",
   str "(", str ")", str "or", str "not", str "and", str "in", str "contains",
   str "!in", str "!contains", str "matches", str "!matches"]

/-- `ifCmdLabels` (extension.ts line 275). -/
def ifCmdLabelsL : List Str := [str "cmd:if", str "cmd:else", str "cmd:while", str "cmd:waituntil"]

/-- `deffableCmdLabels` (extension.ts line 277). -/
def deffableCmdLabelsL : List Str :=
  [str "cmd:run", str "cmd:runlater", str "cmd:clickable", str "cmd:bungeerun"]

/-- `TAG_ALLOWED` (extension.ts line 425). -/
def tagAllowedChars : Str :=
  str "abcdefghijklmnopqrstuvwxyzABCDEFGHIJKLMNOPQRSTUVWXYZ0123456789&_["

/-- `dataActions` (extension.ts line 426). -/
def dataActionsL : List Str :=
  [str ":->:", str ":<-:", str ":|:", str ":!", str ":++", str ":--", str ":<-",
   str ":+:", str ":-:", str ":*:", str ":/:", str ":"]

/-- `definiteNotScriptKeys` (extension.ts lines 627-629). -/
def definiteNotScriptKeysL : List String :=
  ["interact scripts", "default constants", "data", "constants", "text", "lore",
   "aliases", "slots", "enchantments", "input", "description"]

/-! ## The scanners (extension.ts lines 172-775) -/

/-- `checkIfHasTagEnd` (extension.ts lines 279-311): the lookahead deciding
whether a leading `<` is a real tag.  The loop reads `arg.charAt(i - 1)`
for the `||` fallback test, so the previous character is carried along. -/
def checkIfHasTagEnd (arg : Str) (quoted : Bool) (quoteMode : Char) (canQuote : Bool) : Bool :=
  go arg quoted quoteMode 0 false none
where
  /-- One loop step; `params` is the bracket depth, `hf` the `hasFallback`
  flag, `prev` the previously seen character. -/
  go : Str → Bool → Char → Int → Bool → Option Char → Bool
    | [], _, _, _, _, _ => false
    | c :: rest, q, qm, params, hf, prev =>
      if canQuote ∧ (c = '"' ∨ c = '\'') then
        if q ∧ c = qm then go rest false qm params hf (some c)
        else if ¬ q then go rest true c params hf (some c)
        else go rest q qm params hf (some c)
      else if c = '[' then go rest q qm (params + 1) hf (some c)
      else if c = ']' ∧ params > 0 then go rest q qm (params - 1) hf (some c)
      else if c = '>' then true
      else if c = ' ' ∧ ¬ q ∧ canQuote ∧ params = 0 ∧ ¬ hf then false
      else if c = '|' ∧ prev = some '|' then go rest q qm params true (some c)
      else go rest q qm params hf (some c)

/-- `indexOfAny` (extension.ts lines 584-593). -/
def indexOfAny (text : Str) (searches : List Str) (start : Nat) : Int :=
  searches.foldl
    (fun least search =>
      let thisHit := indexOfSubFrom text search start
      if thisHit ≠ -1 ∧ (thisHit < least ∨ least = -1) then thisHit else least)
    (-1)

/-- `decorateDefName` (extension.ts lines 595-605).  Each emitted `tag_dot`
span runs from `dot - 1` to `dot + 1`.  The `while` loop advances `dot`
strictly, so `part.length + 1` fuel covers every iteration. -/
def decorateDefName (part : Str) (lineNumber : Int) (start : Int) : List Ev :=
  go (part.length + 1) (indexOfAny part [str ".", str "|"] 0) 0
where
  /-- The loop over separator hits; emits the final `def_name` span when the
  search is exhausted. -/
  go : Nat → Int → Nat → List Ev
    | 0, _, lastIndex => [⟨"def_name", lineNumber, start + lastIndex, start + part.length⟩]
    | fuel + 1, dot, lastIndex =>
      if dot = -1 then [⟨"def_name", lineNumber, start + lastIndex, start + part.length⟩]
      else
        ⟨"def_name", lineNumber, start + lastIndex, start + dot⟩ ::
        ⟨"tag_dot", lineNumber, start + dot - 1, start + dot + 1⟩ ::
        go fuel (indexOfAny part [str ".", str "|"] (dot.toNat + 1)) (dot.toNat + 1)

/-- `decorateSpaceable` (extension.ts lines 611-625): alternate `decorType`
and `space` spans at each literal space, flushing the final stretch. -/
def decorateSpaceable (line : Str) (preLength : Int) (lineNumber : Int) (decorType : String) :
    List Ev :=
  go line 0 0
where
  /-- Scan the rest of the line; `i` is the absolute index, `lastDecor` the
  start of the pending stretch. -/
  go : Str → Nat → Nat → List Ev
    | [], _, lastDecor =>
      if lastDecor < line.length then
        [⟨decorType, lineNumber, preLength + lastDecor, preLength + line.length⟩]
      else []
    | c :: rest, i, lastDecor =>
      if c = ' ' then
        ⟨decorType, lineNumber, preLength + lastDecor, preLength + i⟩ ::
        ⟨"space", lineNumber, preLength + i, preLength + i + 1⟩ ::
        go rest (i + 1) (i + 1)
      else go rest (i + 1) lastDecor

/-- `decorateComment` (extension.ts lines 607-609). -/
def decorateComment (line : Str) (lineNumber : Int) (decorType : String) : List Ev :=
  decorateSpaceable line 0 lineNumber decorType

/-- `decorateEventLine` (extension.ts lines 754-775). -/
def decorateEventLine (line : Str) (preLength : Int) (lineNumber : Int) : List Ev :=
  go (splitCharJs ' ' line) 0
where
  /-- Walk the space-split tokens, tracking the running column `charIndex`. -/
  go : List Str → Nat → List Ev
    | [], _ => []
    | arg :: rest, charIndex =>
      let format : String :=
        if charIndex = 0 ∧ (arg = str "on" ∨ arg = str "after") then "key" else "event_line"
      let spaceEv : List Ev :=
        if charIndex > 0 then
          [⟨"space", lineNumber, preLength + charIndex - 1, preLength + charIndex⟩]
        else []
      let colon := indexOfJs arg ':'
      let body : List Ev :=
        if colon ≠ -1 then
          [⟨"event_switch", lineNumber, preLength + charIndex, preLength + charIndex + colon⟩,
           ⟨"colons", lineNumber, preLength + charIndex + colon, preLength + charIndex + colon + 1⟩,
           ⟨"event_switch_value", lineNumber, preLength + charIndex + colon + 1,
             preLength + charIndex + arg.length⟩]
        else
          [⟨format, lineNumber, preLength + charIndex, preLength + charIndex + arg.length⟩]
      spaceEv ++ body ++ go rest (charIndex + arg.length + 1)

/-- `decorateDefinitionsKey` (extension.ts lines 719-752).  Note the final
flush happens only when `lastDecor < len - 1`. -/
def decorateDefinitionsKey (arg : Str) (start : Int) (lineNumber : Int) : List Ev :=
  go arg 0 0 "def_name"
where
  /-- Scan the remainder, with `textColor` the current stretch category. -/
  go : Str → Nat → Nat → String → List Ev
    | [], _, lastDecor, textColor =>
      if (lastDecor : Int) < (arg.length : Int) - 1 then
        [⟨textColor, lineNumber, start + lastDecor, start + arg.length⟩]
      else []
    | c :: rest, i, lastDecor, textColor =>
      if c = '[' then
        ⟨textColor, lineNumber, start + lastDecor, start + i⟩ ::
        ⟨"tag_param_bracket", lineNumber, start + i, start + i + 1⟩ ::
        go rest (i + 1) (i + 1) "tag_param"
      else if c = ']' then
        ⟨textColor, lineNumber, start + lastDecor, start + i⟩ ::
        ⟨"tag_param_bracket", lineNumber, start + i, start + i + 1⟩ ::
        go rest (i + 1) (i + 1) "bad_space"
      else if c = ' ' then
        ⟨textColor, lineNumber, start + lastDecor, start + i⟩ ::
        ⟨"space", lineNumber, start + i, start + i + 1⟩ ::
        go rest (i + 1) (i + 1) textColor
      else if c = '|' then
        ⟨textColor, lineNumber, start + lastDecor, start + i⟩ ::
        ⟨"normal", lineNumber, start + i, start + i + 1⟩ ::
        go rest (i + 1) (i + 1) "def_name"
      else go rest (i + 1) lastDecor textColor

/-- The mutable locals of `decorateTag` (extension.ts lines 173-181). -/
structure TagSt where
  inTagCounter : Int
  tagStart : Nat
  inTagParamCounter : Int
  defaultDecor : String
  lastDecor : Int
  textColor : String
  lastDot : Nat
  lastBracket : Nat
deriving Repr

/-- The trailing flush of `decorateTag` (extension.ts lines 268-270). -/
def tagFlush (tag : Str) (start lineNumber : Int) (st : TagSt) : List Ev :=
  if st.lastDecor < (tag.length : Int) then
    [⟨st.defaultDecor, lineNumber, start + st.lastDecor, start + tag.length⟩]
  else []

/-- The loop body of `decorateTag` (extension.ts lines 182-267), fuelled:
each loop step and each recursive sub-parse of a nested `<...>` interior
consumes one unit.  The index strictly increases each step and every
sub-parse is on a strictly shorter interior, so the wrapper budget
`(len + 1)^2 + 1` strictly exceeds the total number of steps. -/
def decorateTagGo (cfg : Config) : Nat → Str → Int → Int → Nat → TagSt → List Ev
  | 0, tag, start, lineNumber, _, st => tagFlush tag start lineNumber st
  | fuel + 1, tag, start, lineNumber, i, st =>
    if i < tag.length then
      let c := tag.getD i (Char.ofNat 0)
      if c = '<' then
        let inTag := st.inTagCounter + 1
        if inTag = 1 then
          ⟨st.defaultDecor, lineNumber, start + st.lastDecor, start + i⟩ ::
          decorateTagGo cfg fuel tag start lineNumber (i + 1)
            { st with inTagCounter := inTag, lastDecor := (i : Int),
                      textColor := st.defaultDecor, defaultDecor := "tag",
                      tagStart := i, lastDot := i }
        else
          decorateTagGo cfg fuel tag start lineNumber (i + 1) { st with inTagCounter := inTag }
      else if c = '>' ∧ st.inTagCounter > 0 then
        let inTag := st.inTagCounter - 1
        if inTag = 0 then
          let tagText := substringJs tag (st.tagStart + 1) i
          match getTagColor cfg tagText st.textColor with
          | some autoColor =>
            ⟨"auto:" ++ autoColor, lineNumber, start + st.tagStart + 1, start + i⟩ ::
            ⟨"tag", lineNumber, start + st.tagStart, start + st.tagStart + 1⟩ ::
            ⟨"tag", lineNumber, start + i, start + i + 1⟩ ::
            decorateTagGo cfg fuel tag start lineNumber (i + 1)
              { st with inTagCounter := 0, defaultDecor := "auto:" ++ autoColor,
                        textColor := "auto:" ++ autoColor, lastDecor := (i : Int) + 1 }
          | none =>
            decorateTagGo cfg fuel tagText (start + st.tagStart + 1) lineNumber 0
              ⟨0, 0, 0, "tag", -1, "tag_param", 0, 0⟩ ++
            ⟨"tag", lineNumber, start + i, start + i + 1⟩ ::
            decorateTagGo cfg fuel tag start lineNumber (i + 1)
              { st with inTagCounter := 0,
                        defaultDecor := if st.inTagParamCounter > 0 then st.textColor else "tag",
                        lastDecor := (i : Int) + 1 }
        else
          decorateTagGo cfg fuel tag start lineNumber (i + 1) { st with inTagCounter := inTag }
      else if c = '[' ∧ st.inTagCounter = 0 ∧ i + 1 < tag.length then
        let inParam := st.inTagParamCounter + 1
        if inParam = 1 then
          let newDefault : String :=
            if i = 0 then "def_name"
            else
              let lastTag := substringJs tag 0 i
              if endsWithJs lastTag (str ".flag") ∨ endsWithJs lastTag (str ".flag_expiration") ∨
                  endsWithJs lastTag (str ".has_flag") then "def_name"
              else "tag_param"
          ⟨st.defaultDecor, lineNumber, start + st.lastDecor, start + i⟩ ::
          ⟨"tag_param_bracket", lineNumber, start + i, start + i + 1⟩ ::
          decorateTagGo cfg fuel tag start lineNumber (i + 1)
            { st with inTagParamCounter := inParam, lastBracket := i,
                      lastDecor := (i : Int) + 1, defaultDecor := newDefault }
        else
          decorateTagGo cfg fuel tag start lineNumber (i + 1)
            { st with inTagParamCounter := inParam }
      else if c = ']' ∧ st.inTagCounter = 0 then
        let inParam := st.inTagParamCounter - 1
        if inParam = 0 then
          let lastTag := substringJs tag (st.lastDot + 1) st.lastBracket
          let bracketedText := substringJs tag (st.lastBracket + 1) i
          let colorFormat := "&[" ++ ofStr (lowerStr bracketedText) ++ "]"
          let inner : List Ev :=
            match
              (if lastTag = str "custom_color" ∧ ¬ containsChar bracketedText '<' then
                tagSpecial cfg colorFormat else none) with
            | some color => [⟨"auto:" ++ color, lineNumber, start + st.lastDecor, start + i⟩]
            | none =>
              if st.defaultDecor = "def_name" then
                decorateDefName (substringJs tag st.lastDecor i) lineNumber (start + st.lastDecor)
              else [⟨st.defaultDecor, lineNumber, start + st.lastDecor, start + i⟩]
          inner ++
          ⟨"tag_param_bracket", lineNumber, start + i, start + i + 1⟩ ::
          decorateTagGo cfg fuel tag start lineNumber (i + 1)
            { st with inTagParamCounter := inParam, defaultDecor := "tag",
                      lastDecor := (i : Int) + 1 }
        else
          decorateTagGo cfg fuel tag start lineNumber (i + 1)
            { st with inTagParamCounter := inParam }
      else if (c = '.' ∨ c = '|') ∧ st.inTagCounter = 0 ∧ st.inTagParamCounter = 0 then
        ⟨st.defaultDecor, lineNumber, start + st.lastDecor, start + i⟩ ::
        ⟨"tag_dot", lineNumber, start + i, start + i + 1⟩ ::
        decorateTagGo cfg fuel tag start lineNumber (i + 1)
          { st with lastDecor := (i : Int) + 1, lastDot := i }
      else if c = ' ' ∧ st.inTagCounter = 0 then
        ⟨st.defaultDecor, lineNumber, start + st.lastDecor, start + i⟩ ::
        ⟨"space", lineNumber, start + i, start + i + 1⟩ ::
        decorateTagGo cfg fuel tag start lineNumber (i + 1)
          { st with lastDecor := (i : Int) + 1 }
      else
        decorateTagGo cfg fuel tag start lineNumber (i + 1) st
    else tagFlush tag start lineNumber st

/-- `decorateTag` (extension.ts lines 172-271). -/
def decorateTag (cfg : Config) (tag : Str) (start lineNumber : Int) : List Ev :=
  decorateTagGo cfg ((tag.length + 1) * (tag.length + 1) + 1) tag start lineNumber 0
    ⟨0, 0, 0, "tag", -1, "tag_param", 0, 0⟩

/-- The mutable locals of `decorateArg` (extension.ts lines 429-439). -/
structure ArgSt where
  quoted : Bool
  quoteMode : Char
  inTagCounter : Int
  tagStart : Nat
  defaultDecor : String
  lastDecor : Nat
  hasTagEnd : Bool
  spaces : Nat
  textColor : String
deriving Repr

/-- The trailing flush of `decorateArg` (extension.ts lines 579-581). -/
def argFlush (arg : Str) (start lineNumber : Int) (st : ArgSt) : List Ev :=
  if st.lastDecor < arg.length then
    [⟨st.defaultDecor, lineNumber, start + st.lastDecor, start + arg.length⟩]
  else []

/-- The quoted-string category for a quote character. -/
def quoteCat (c : Char) : String := if c = '"' then "quote_double" else "quote_single"

/-- The `run`/`runlater`/`clickable`/`bungeerun` colon handling
(extension.ts lines 488-507): when the part before the colon (optionally
behind an opening quote) is a plain `def.`-prefixed name, mark the prefix
and the definition name; otherwise do nothing. -/
def argDeffableColon (arg : Str) (start lineNumber : Int) (canQuote : Bool) (i : Nat)
    (st : ArgSt) : List Ev × ArgSt :=
  let origPart := substringJs arg st.lastDecor i
  let bumped : Bool :=
    canQuote ∧ (startsWithJs origPart (str "'") ∨ startsWithJs origPart (str "\""))
  let part := if bumped then origPart.drop 1 else origPart
  let bump : Nat := if bumped then 1 else 0
  if startsWithJs part (str "def.") ∧ ¬ containsChar part '<' ∧
      ¬ containsChar part ' ' then
    ((if bumped then
        [⟨(if startsWithJs origPart (str "\"") then "quote_double" else "quote_single"),
           lineNumber, start + st.lastDecor, start + st.lastDecor + 1⟩,
         ⟨"normal", lineNumber, start + st.lastDecor + 1, start + st.lastDecor + 1 + 4⟩]
      else
        [⟨st.defaultDecor, lineNumber, start + st.lastDecor, start + st.lastDecor + 4⟩]) ++
      decorateDefName (part.drop 4) lineNumber (start + bump + st.lastDecor + 4),
     { st with lastDecor := i })
  else ([], st)

/-- The next whitespace-delimited token after position `i` (extension.ts
line 523). -/
def argNextArg (arg : Str) (i : Nat) : Str :=
  let spaceHit := indexOfFrom arg ' ' (i + 1)
  if spaceHit ≠ -1 then substringJs arg (i + 1) spaceHit
  else substringFromJs arg (i + 1)

/-- The state updates an unquoted top-level space performs (extension.ts
lines 514-521): recompute the tag lookahead, advance the boundary, reset
the tag counter and the default colour, count the space. -/
def argSpaceReset (arg : Str) (canQuote : Bool) (i : Nat) (st : ArgSt) : ArgSt :=
  { st with
      hasTagEnd := checkIfHasTagEnd (substringFromJs arg (i + 1)) st.quoted st.quoteMode canQuote,
      lastDecor := i + 1, inTagCounter := 0,
      defaultDecor := if canQuote then "normal" else st.textColor,
      spaces := st.spaces + 1 }

/-- The pending-stretch and space spans an unquoted top-level space emits
(extension.ts lines 515-516). -/
def argSpaceEvs (start lineNumber : Int) (i : Nat) (st : ArgSt) : List Ev :=
  [⟨st.defaultDecor, lineNumber, start + st.lastDecor, start + i⟩,
   ⟨"space", lineNumber, start + i, start + i + 1⟩]

/-- The colon-split index of the define/definemap/flag sub-grammar
(extension.ts lines 543-551): the first colon of the next token, the token
length when there is none and the command is not `flag`, and `-1` for
`flag`'s `expire:` sub-option. -/
def argColonIndex (label : Str) (nextArg : Str) : Int :=
  let colonHit := indexOfJs nextArg ':'
  let colonAdj : Int :=
    if colonHit = -1 ∧ label ≠ str "cmd:flag" then (nextArg.length : Int) else colonHit
  if label = str "cmd:flag" ∧ startsWithJs nextArg (str "expire:") then -1 else colonAdj

/-- The define/definemap/flag sub-grammar (extension.ts lines 542-575):
split the next token at its first colon, mark the name part as a definition
name, and mark a leading data-action operator after the colon. -/
def argDefineStep (start lineNumber : Int) (canQuote : Bool) (label : Str) (i : Nat)
    (stSp : ArgSt) (spaceEvs : List Ev) (nextArg : Str) : List Ev × Nat × ArgSt :=
  let colonIndex : Int := argColonIndex label nextArg
  let tagMark := indexOfJs nextArg '<'
  if (tagMark = -1 ∨ tagMark > colonIndex) ∧ colonIndex ≠ -1 then
    let argStart := charAtJs nextArg 0
    let quoting : Bool := canQuote ∧ (argStart = '"' ∨ argStart = '\'')
    let bump : Nat := if quoting then 1 else 0
    let quoteEvs : List Ev :=
      if quoting then
        [⟨quoteCat argStart, lineNumber, start + i + 1, start + i + 2⟩]
      else []
    let iNew := i + colonIndex.toNat
    let afterColon := substringFromJs nextArg colonIndex
    let action := dataActionsL.find? (fun p => startsWithJs afterColon p)
    let actionEvs : List Ev :=
      match action with
      | some p =>
        [⟨"data_actions", lineNumber, start + iNew + 1, start + iNew + 1 + p.length⟩]
      | none => []
    let lastDecorNew : Nat :=
      match action with
      | some p => iNew + p.length + 1
      | none => iNew + bump
    (spaceEvs ++ quoteEvs ++
      decorateDefName (substringJs nextArg bump colonIndex) lineNumber
        (start + i + 1 + bump) ++
      actionEvs,
     iNew + 1,
     { stSp with
         quoted := quoting,
         defaultDecor := if quoting then quoteCat argStart else stSp.defaultDecor,
         quoteMode := if quoting then argStart else stSp.quoteMode,
         lastDecor := lastDecorNew })
  else (spaceEvs, i + 1, stSp)

/-- The body of `decorateArg`'s unquoted-space branch (extension.ts lines
513-577).  Returns the events emitted by the step, the index the loop
resumes at (after the `i += …` skips plus the loop `i++`), and the updated
scanner state. -/
def argSpaceStep (arg : Str) (start lineNumber : Int) (canQuote : Bool)
    (label : Str) (i : Nat) (st : ArgSt) : List Ev × Nat × ArgSt :=
  let spaceEvs := argSpaceEvs start lineNumber i st
  let stSp := argSpaceReset arg canQuote i st
  let nextArg := argNextArg arg i
  if ifOperatorsL.contains nextArg ∧ ifCmdLabelsL.contains label then
    (spaceEvs ++
      [⟨"if_operators", lineNumber, start + i + 1, start + i + 1 + nextArg.length⟩],
     i + nextArg.length + 1, { stSp with lastDecor := i + nextArg.length + 1 })
  else if startsWithJs nextArg (str "as:") ∧ ¬ containsSub nextArg (str "<") ∧
      (label = str "cmd:foreach" ∨ label = str "cmd:repeat") then
    (spaceEvs ++
      ⟨"normal", lineNumber, start + i + 1, start + i + 1 + 3⟩ ::
      decorateDefName (nextArg.drop 3) lineNumber (start + i + 1 + 3),
     i + nextArg.length + 1, { stSp with lastDecor := i + nextArg.length + 1 })
  else if startsWithJs nextArg (str "key:") ∧ ¬ containsSub nextArg (str "<") ∧
      label = str "cmd:foreach" then
    (spaceEvs ++
      ⟨"normal", lineNumber, start + i + 1, start + i + 1 + 4⟩ ::
      decorateDefName (nextArg.drop 4) lineNumber (start + i + 1 + 4),
     i + nextArg.length + 1, { stSp with lastDecor := i + nextArg.length + 1 })
  else if (st.spaces + 1 = 1 ∧ (label = str "cmd:define" ∨ label = str "cmd:definemap")) ∨
      label = str "cmd:flag" then
    argDefineStep start lineNumber canQuote label i stSp spaceEvs nextArg
  else (spaceEvs, i + 1, stSp)

/-- The loop body of `decorateArg` (extension.ts lines 440-578), fuelled with
one unit per loop step; the `i += …` skips only increase the index further,
so `arg.length + 1` units strictly exceed the iteration count. -/
def decorateArgGo (cfg : Config) (arg : Str) (start lineNumber : Int) (canQuote : Bool)
    (label : Str) : Nat → Nat → ArgSt → List Ev
  | 0, _, st => argFlush arg start lineNumber st
  | fuel + 1, i, st =>
    if i < arg.length then
      let c := arg.getD i (Char.ofNat 0)
      if canQuote ∧ (c = '"' ∨ c = '\'') then
        if st.quoted ∧ c = st.quoteMode then
          ⟨st.defaultDecor, lineNumber, start + st.lastDecor, start + i⟩ ::
          ⟨quoteCat c, lineNumber, start + i, start + i + 1⟩ ::
          decorateArgGo cfg arg start lineNumber canQuote label fuel (i + 1)
            { st with lastDecor := i + 1, defaultDecor := "normal", textColor := "normal",
                      quoted := false }
        else if ¬ st.quoted then
          ⟨st.defaultDecor, lineNumber, start + st.lastDecor, start + i⟩ ::
          decorateArgGo cfg arg start lineNumber canQuote label fuel (i + 1)
            { st with lastDecor := i, quoted := true, defaultDecor := quoteCat c,
                      textColor := quoteCat c, quoteMode := c }
        else
          decorateArgGo cfg arg start lineNumber canQuote label fuel (i + 1) st
      else if st.hasTagEnd ∧ c = '<' ∧ i + 1 < arg.length ∧
          tagAllowedChars.contains (arg.getD (i + 1) (Char.ofNat 0)) then
        let inTag := st.inTagCounter + 1
        if inTag = 1 then
          ⟨st.defaultDecor, lineNumber, start + st.lastDecor, start + i⟩ ::
          decorateArgGo cfg arg start lineNumber canQuote label fuel (i + 1)
            { st with inTagCounter := inTag, lastDecor := i, tagStart := i,
                      defaultDecor := "tag" }
        else
          decorateArgGo cfg arg start lineNumber canQuote label fuel (i + 1)
            { st with inTagCounter := inTag }
      else if st.hasTagEnd ∧ c = '>' ∧ st.inTagCounter > 0 then
        let inTag := st.inTagCounter - 1
        if inTag = 0 then
          let tagText := substringJs arg (st.tagStart + 1) i
          match getTagColor cfg tagText st.textColor with
          | some autoColor =>
            ⟨"tag", lineNumber, start + st.tagStart, start + st.tagStart + 1⟩ ::
            ⟨"auto:" ++ autoColor, lineNumber, start + st.tagStart + 1, start + i⟩ ::
            ⟨"tag", lineNumber, start + i, start + i + 1⟩ ::
            decorateArgGo cfg arg start lineNumber canQuote label fuel (i + 1)
              { st with inTagCounter := 0, defaultDecor := "auto:" ++ autoColor,
                        textColor := "auto:" ++ autoColor, lastDecor := i + 1 }
          | none =>
            decorateTag cfg tagText (start + st.tagStart + 1) lineNumber ++
            ⟨"tag", lineNumber, start + i, start + i + 1⟩ ::
            decorateArgGo cfg arg start lineNumber canQuote label fuel (i + 1)
              { st with inTagCounter := 0, defaultDecor := st.textColor, lastDecor := i + 1 }
        else
          decorateArgGo cfg arg start lineNumber canQuote label fuel (i + 1)
            { st with inTagCounter := inTag }
      else if st.inTagCounter = 0 ∧ c = ':' ∧
          deffableCmdLabelsL.contains (removeTildes label) then
        let step := argDeffableColon arg start lineNumber canQuote i st
        step.1 ++ decorateArgGo cfg arg start lineNumber canQuote label fuel (i + 1) step.2
      else if c = ' ' ∧ (st.quoted ∨ ¬ canQuote) ∧ st.inTagCounter = 0 then
        ⟨st.defaultDecor, lineNumber, start + st.lastDecor, start + i⟩ ::
        ⟨"space", lineNumber, start + i, start + i + 1⟩ ::
        decorateArgGo cfg arg start lineNumber canQuote label fuel (i + 1)
          { st with lastDecor := i + 1 }
      else if c = ' ' ∧ ¬ st.quoted ∧ canQuote ∧ st.inTagCounter = 0 then
        let step := argSpaceStep arg start lineNumber canQuote label i st
        step.1 ++ decorateArgGo cfg arg start lineNumber canQuote label fuel step.2.1 step.2.2
      else
        decorateArgGo cfg arg start lineNumber canQuote label fuel (i + 1) st
    else argFlush arg start lineNumber st

/-- `decorateArg` (extension.ts lines 428-582). -/
def decorateArg (cfg : Config) (arg : Str) (start lineNumber : Int) (canQuote : Bool)
    (label : Str) : List Ev :=
  decorateArgGo cfg arg start lineNumber canQuote label (arg.length + 1) 0
    ⟨false, 'x', 0, 0, "normal", 0, checkIfHasTagEnd arg false 'x' canQuote, 0, "normal"⟩

/-- Strip one trailing carriage return (extension.ts lines 632-634). -/
def crStrip (rawLine : Str) : Str :=
  if endsWithJs rawLine (str "\r") then substringJs rawLine 0 ((rawLine.length : Int) - 1)
  else rawLine

/-- `decorateLine` (extension.ts lines 631-717): classify one raw line and
emit its spans.  The `lastKey` parameter exists in the source but is unused
by the function body. -/
def decorateLine (cfg : Config) (rawLine : Str) (lineNumber : Int) (_lastKey : String)
    (isData : Bool) : List Ev :=
  let line := crStrip rawLine
  let trimmedEnd := trimEndJs line
  let trimmed := trimStartJs trimmedEnd
  if trimmed.length = 0 then []
  else
    let badTail : List Ev :=
      if trimmedEnd.length ≠ line.length then
        [⟨"bad_space", lineNumber, trimmedEnd.length, line.length⟩]
      else []
    let preSpaces : Nat := trimmedEnd.length - trimmed.length
    badTail ++
    (if startsWithJs trimmed (str "#") then
      let afterComment := trimJs (trimmed.drop 1)
      let symbol := if afterComment.length = 0 then ' ' else afterComment.getD 0 (Char.ofNat 0)
      if cfg.headerSymbols.contains symbol then
        decorateComment line lineNumber "comment_header"
      else if startsWithJs afterComment (str "-") then
        decorateComment line lineNumber "comment_code"
      else if startsWithJs (lowerStr afterComment) (str "todo") then
        decorateComment line lineNumber "comment_todo"
      else
        decorateComment line lineNumber "comment_normal"
    else if startsWithJs trimmed (str "-") then
      Ev.mk "normal" lineNumber preSpaces (preSpaces + 1) ::
      (if isData then
        decorateArg cfg (trimmed.drop 1) ((preSpaces : Int) + 1) lineNumber false
          (str "non-script")
      else
        let hasColon := endsWithJs trimmed (str ":")
        let colonEvs : List Ev :=
          if hasColon then
            [⟨"colons", lineNumber, (preSpaces : Int) + trimmed.length - 1,
               (preSpaces : Int) + trimmed.length⟩]
          else []
        let trimmed2 := if hasColon then substringJs trimmed 0 ((trimmed.length : Int) - 1)
          else trimmed
        let afterDash := trimmed2.drop 1
        let commandEnd : Int := indexOfFrom afterDash ' ' 1 + 1
        let endIndexCleaned : Int :=
          (preSpaces : Int) + (if commandEnd = 0 then (trimmed2.length : Int) else commandEnd)
        let commandText := if commandEnd = 0 then afterDash else substringJs afterDash 0 commandEnd
        colonEvs ++
        (if ¬ startsWithJs afterDash (str " ") then
          ⟨"bad_space", lineNumber, (preSpaces : Int) + 1, endIndexCleaned⟩ ::
          decorateArg cfg (substringFromJs trimmed2 commandEnd) ((preSpaces : Int) + commandEnd)
            lineNumber false (str "cmd:" ++ trimJs commandText)
        else if containsChar commandText '\'' ∨ containsChar commandText '"' ∨
            containsChar commandText '[' then
          decorateArg cfg (trimmed2.drop 2) ((preSpaces : Int) + 2) lineNumber false
            (str "non-cmd")
        else
          ⟨"command", lineNumber, (preSpaces : Int) + 2, endIndexCleaned⟩ ::
          (if commandEnd > 0 then
            decorateArg cfg (substringFromJs trimmed2 commandEnd) ((preSpaces : Int) + commandEnd)
              lineNumber true (str "cmd:" ++ trimJs commandText)
          else [])))
    else if endsWithJs trimmed (str ":") then
      (if startsWithJs trimmed (str "on ") ∨ startsWithJs trimmed (str "after ") then
        decorateEventLine (substringJs trimmed 0 ((trimmed.length : Int) - 1)) preSpaces
          lineNumber
      else
        decorateSpaceable (substringJs trimmed 0 ((trimmed.length : Int) - 1)) preSpaces
          lineNumber "key") ++
      [⟨"colons", lineNumber, (trimmedEnd.length : Int) - 1, trimmedEnd.length⟩]
    else if containsSub trimmed (str ": ") then
      let colonIndex := indexOfSub line (str ": ")
      let key := substringJs trimmed 0 (colonIndex - preSpaces)
      decorateSpaceable key preSpaces lineNumber "key_inline" ++
      ⟨"colons", lineNumber, colonIndex, colonIndex + 1⟩ ::
      ⟨"space", lineNumber, colonIndex + 1, colonIndex + 2⟩ ::
      (if key = str "definitions" then
        decorateDefinitionsKey (substringFromJs trimmed (colonIndex - preSpaces + 2))
          (colonIndex + 2) lineNumber
      else
        decorateArg cfg (substringFromJs trimmed (colonIndex - preSpaces + 2))
          (colonIndex + 2) lineNumber false (str "key:" ++ key))
    else
      [⟨"bad_space", lineNumber, preSpaces, line.length⟩])

/-! ## Folding engine (extension.ts lines 869-916, 1080-1089) -/

/-- `InProcFold` (extension.ts lines 1080-1089). -/
structure InProcFold where
  start : Int
  spacing : Int
  isCommand : Bool
deriving Repr, DecidableEq

/-- `vscode.FoldingRange` as produced by the provider. -/
structure FoldRange where
  startLine : Int
  endLine : Int
deriving Repr, DecidableEq

/-- The pop condition of the folding `while` loop (extension.ts line 890). -/
def popCond (lastFold : InProcFold) (spaces : Int) (isBlock isCommand : Bool) : Bool :=
  lastFold.spacing > spaces ∨ spaces = 0 ∨
    (lastFold.spacing = spaces ∧ ((isBlock ∧ ¬ isCommand) ∨ lastFold.isCommand))

/-- The `while` loop of the folding provider (extension.ts lines 888-900):
pop frames from the top of the stack while the pop condition holds, each
yielding a fold range ending at `i - 1`.  The stack is kept top-first. -/
def popFolds (spaces : Int) (isBlock isCommand : Bool) (i : Int) :
    List InProcFold → List FoldRange × List InProcFold
  | [] => ([], [])
  | lastFold :: rest =>
    if popCond lastFold spaces isBlock isCommand then
      let (out, st) := popFolds spaces isBlock isCommand i rest
      (⟨lastFold.start, i - 1⟩ :: out, st)
    else ([], lastFold :: rest)

/-- The per-line body of the folding provider (extension.ts lines 879-906):
blank lines are skipped; otherwise pop, then push a frame if the line is a
block header. -/
def foldLineStep (line : Str) (i : Int) (stack : List InProcFold) :
    List FoldRange × List InProcFold :=
  let preTrimmed := trimStartJs line
  if preTrimmed.length = 0 then ([], stack)
  else
    let spaces : Int := (line.length : Int) - preTrimmed.length
    let fullTrimmed := trimEndJs preTrimmed
    let isBlock := endsWithJs fullTrimmed (str ":")
    let isCommand := startsWithJs fullTrimmed (str "-")
    let (out, stack2) := popFolds spaces isBlock isCommand i stack
    if isBlock then (out, ⟨i, spaces, isCommand⟩ :: stack2) else (out, stack2)

/-- The main loop of the folding provider over all lines. -/
def foldLines : List Str → Int → List InProcFold → List FoldRange × List InProcFold
  | [], _, stack => ([], stack)
  | line :: rest, i, stack =>
    let (out1, stack1) := foldLineStep line i stack
    let (out2, stack2) := foldLines rest (i + 1) stack1
    (out1 ++ out2, stack2)

/-- `denizenScriptFoldingProvider` (extension.ts lines 869-916): run the main
loop, then close every frame still open at `totalLines - 1`. -/
def denizenScriptFoldingProvider (lines : List Str) : List FoldRange :=
  let totalLines : Int := lines.length
  let (out, remaining) := foldLines lines 0 []
  out ++ remaining.map (fun f => ⟨f.start, totalLines - 1⟩)

/-! ## Cross-line context and the full-file pass (extension.ts lines 777-867) -/

/-- The cross-line state of `decorateFullFile`'s line loop: `lastKey` (the
lowercased most recent block header) and `definitelyDataSpacing` (the data
anchor indentation, `-1` when data mode is closed). -/
structure Ctx where
  lastKey : String
  dds : Int
deriving Repr, DecidableEq

/-- The initial context (`lastKey = ""`, `definitelyDataSpacing = -1`). -/
def ctxInit : Ctx := ⟨"", -1⟩

/-- One step of the context update (extension.ts lines 836-854), performed
before the line is decorated. -/
def ctxStep (ctx : Ctx) (lineText : Str) : Ctx :=
  let trimmedLineStart := trimStartJs lineText
  let spaces : Int := (lineText.length : Int) - trimmedLineStart.length
  let trimmedLine := trimEndJs trimmedLineStart
  let ctx1 :=
    if endsWithJs trimmedLine (str ":") ∧ ¬ startsWithJs trimmedLine (str "-") then
      let lastKey := ofStr (lowerStr (substringJs trimmedLine 0 ((trimmedLine.length : Int) - 1)))
      let dds1 := if spaces ≤ ctx.dds then -1 else ctx.dds
      let dds2 := if definiteNotScriptKeysL.contains lastKey ∧ dds1 = -1 then spaces else dds1
      Ctx.mk lastKey dds2
    else if trimmedLine = str "type: data" ∧ (ctx.dds = -1 ∨ spaces ≤ ctx.dds) then
      { ctx with dds := spaces - 1 }
    else ctx
  if spaces < ctx1.dds then { ctx1 with dds := -1 } else ctx1

/-- The decoration events of the line loop of `decorateFullFile`
(extension.ts lines 833-858): walk lines `0 ≤ i < endN` threading the
context, decorating only lines with `i ≥ startN`.  `rem` counts the
remaining iterations (`endN` at the start). -/
def passEventsGo (cfg : Config) (lines : List Str) (startN : Nat) :
    Nat → Nat → Ctx → List Ev
  | 0, _, _ => []
  | rem + 1, i, ctx =>
    let lineText := lines.getD i []
    let ctx2 := ctxStep ctx lineText
    let evs :=
      if startN ≤ i then decorateLine cfg lineText i ctx2.lastKey (ctx2.dds ≠ -1) else []
    evs ++ passEventsGo cfg lines startN rem (i + 1) ctx2

/-- All decoration events produced by one pass over `[startN, endN)`. -/
def passEvents (cfg : Config) (lines : List Str) (startN endN : Nat) : List Ev :=
  passEventsGo cfg lines startN endN 0 ctxInit

/-! ## The decoration map and `addDecor` (extension.ts lines 63-64, 164-170) -/

/-- The `decorations` object: an insertion-ordered association from category
name to pushed ranges (JavaScript object property order). -/
abbrev DecMap := List (String × List Rng)

/-- The keys of a decoration map, in property order. -/
def keysOf (m : DecMap) : List String := m.map (·.1)

/-- Whether a category key is present (defined) in the map. -/
def hasKey (m : DecMap) (c : String) : Bool := (m.lookup c).isSome

/-- The ranges stored for a category (the empty list when absent). -/
def lookupSpans (m : DecMap) (c : String) : List Rng := (m.lookup c).getD []

/-- Assign `decorations[c] = v`: overwrite in place when present, append a
new property otherwise. -/
def setKey (m : DecMap) (c : String) (v : List Rng) : DecMap :=
  if hasKey m c then m.map (fun p => if p.1 = c then (c, v) else p) else m ++ [(c, v)]

/-- `decorations[c].push(r)` on a present key. -/
def pushKey (m : DecMap) (c : String) (r : Rng) : DecMap :=
  m.map (fun p => if p.1 = c then (p.1, p.2 ++ [r]) else p)

/-- Whether a category is one of the on-the-fly `auto:` literal colours. -/
def isAuto (c : String) : Bool := (str "auto:").isPrefixOf (str c)

/-- `addDecor` (extension.ts lines 164-170) applied to one event, with
`reg` playing the role of the keys of the global `highlightDecors`
registry.  An unregistered `auto:` category is registered and given a
fresh list; any other category must already have a list in `decorations`,
otherwise the JavaScript `decorations[type].push` call throws
(`undefined` has no `push`), modelled as `none`. -/
def applyEv (reg : List String) (m : DecMap) (e : Ev) : Option (List String × DecMap) :=
  if ¬ reg.contains e.cat ∧ isAuto e.cat then
    some (reg ++ [e.cat], pushKey (setKey m e.cat []) e.cat e.toRng)
  else if hasKey m e.cat then some (reg, pushKey m e.cat e.toRng)
  else none

/-- Apply a list of decoration events in order; fails at the first crash. -/
def applyEvents (reg : List String) (m : DecMap) : List Ev → Option (List String × DecMap)
  | [] => some (reg, m)
  | e :: rest =>
    match applyEv reg m e with
    | some (reg2, m2) => applyEvents reg2 m2 rest
    | none => none

/-! ## The highlight cache and `decorateFullFile` -/

/-- `HighlightCache` (extension.ts lines 20-25). -/
structure HighlightCache where
  needRefreshStartLine : Int := -1
  needRefreshEndLine : Int := -1
  needRefreshLineShift : Int := 0
  lastDecorations : DecMap := []
deriving Repr, DecidableEq

/-- A fresh cache (the state `getCache` creates). -/
def freshCache : HighlightCache := {}

/-- Translate a cached range by `shift` lines. -/
def shiftRng (r : Rng) (shift : Int) : Rng :=
  ⟨r.startLine + shift, r.startChar, r.endLine + shift, r.endChar⟩

/-- The cached-span shift-and-splice loop of `decorateFullFile`
(extension.ts lines 796-810), iterating the registered categories: ranges
past the shift boundary are translated by the accumulated line shift, and
every range overlapping the (already adjusted) dirty window `[s, e]` is
spliced out.  Reading `decorations[c]` for a registered category absent
from the map dereferences `undefined` (a crash), modelled as `none`. -/
def shiftSplice (m : DecMap) (s e shift : Int) : List String → Option DecMap
  | [] => some m
  | c :: rest =>
    match m.lookup c with
    | none => none
    | some rangeSet =>
      let shifted :=
        if shift ≠ 0 then
          rangeSet.map (fun r =>
            if (if shift > 0 then r.startLine ≥ e - shift else r.startLine ≥ s - shift) then
              shiftRng r shift
            else r)
        else rangeSet
      let spliced := shifted.filter (fun r => ¬ (r.startLine ≤ e ∧ r.endLine ≥ s))
      shiftSplice (setKey m c spliced) s e shift rest

/-- `decorateFullFile` (extension.ts lines 777-867) over a document given as
its list of lines (the editor text split at newlines): returns the updated
registry, the computed decoration map, and the reset cache, or `none` when
the JavaScript pass would throw. -/
def decorateFullFile (cfg : Config) (reg : List String) (lines : List Str)
    (hl : HighlightCache) : Option (List String × DecMap × HighlightCache) :=
  let hl1 := if hl.lastDecorations.isEmpty then { hl with needRefreshStartLine := -1 } else hl
  let totalLines : Nat := lines.length
  if hl1.needRefreshStartLine = -1 then
    let m0 : DecMap := reg.map (fun c => (c, []))
    let evs := passEvents cfg lines 0 totalLines
    (applyEvents reg m0 evs).map (fun p => (p.1, p.2, ⟨-1, -1, 0, p.2⟩))
  else
    let e1 := if hl1.needRefreshLineShift > 0 then
        hl1.needRefreshEndLine + hl1.needRefreshLineShift else hl1.needRefreshEndLine
    let s1 := if hl1.needRefreshLineShift < 0 then
        hl1.needRefreshStartLine + hl1.needRefreshLineShift else hl1.needRefreshStartLine
    match shiftSplice hl1.lastDecorations s1 e1 hl1.needRefreshLineShift reg with
    | none => none
    | some m0 =>
      let startN : Nat := s1.toNat
      let endN : Nat :=
        if s1 = -1 then totalLines else (min (e1 + 1) (totalLines : Int)).toNat
      let evs := passEvents cfg lines startN endN
      (applyEvents reg m0 evs).map (fun p => (p.1, p.2, ⟨-1, -1, 0, p.2⟩))

/-- The `onDidChangeTextDocument` cache update (extension.ts lines 1037-1046)
for one edit reported as replacing lines `[s, e]` with a net line-count
delta of `shift`: widen the dirty region and accumulate the shift. -/
def applyEditToCache (hl : HighlightCache) (s e shift : Int) : HighlightCache :=
  { hl with
    needRefreshStartLine :=
      if hl.needRefreshStartLine = -1 ∨ s < hl.needRefreshStartLine then s
      else hl.needRefreshStartLine,
    needRefreshEndLine :=
      if hl.needRefreshEndLine = -1 ∨ e > hl.needRefreshEndLine then e
      else hl.needRefreshEndLine,
    needRefreshLineShift := hl.needRefreshLineShift + shift }

/-- Apply an edit to the document itself: replace lines `[s, e]` by
`newLines` (what the host editor does to the text). -/
def replaceLines (lines : List Str) (s e : Nat) (newLines : List Str) : List Str :=
  lines.take s ++ newLines ++ lines.drop (e + 1)

/-! ## Query helpers used by the theorems -/

/-- The ranges a map holds for a category restricted to one line. -/
def spansAtLine (m : DecMap) (c : String) (j : Int) : List Rng :=
  (lookupSpans m c).filter (fun r => r.startLine = j)

/-- How many emitted spans contain column `p` (an event contains `p` when
`startC ≤ p < endC`). -/
def coverCount (evs : List Ev) (p : Int) : Nat :=
  (evs.filter (fun e => e.startC ≤ p ∧ p < e.endC)).length

/-- The decoration events of line `j` of a document, with the cross-line
context obtained by folding the preceding lines. -/
def lineEventsCtx (cfg : Config) (lines : List Str) (j : Nat) : List Ev :=
  let ctx := (lines.take (j + 1)).foldl ctxStep ctxInit
  decorateLine cfg (lines.getD j []) j ctx.lastKey (ctx.dds ≠ -1)

/-- The default configuration: the literal initial values of the globals
(extension.ts lines 11-18) with no user colour strings loaded. -/
def cfgDefault : Config := {}

/-! ## Claim C3: the folding example -/

/-- The five-line fold example document (claim C3 lines 0-4). -/
def foldExampleDoc : List Str :=
  [str "on signal:", str "- if <x>:", str "  - narrate hi", str "- else:",
   str "  - narrate bye"]

/-- The same document with the trailing blank line (spec lines 0-5). -/
def foldExampleDoc6 : List Str := foldExampleDoc ++ [[]]

/-- Claim C3 counterexample: on the example document the folding provider
never yields the range `(0, 5)` the claim requires — the `spaces == 0` arm
of the pop condition closes the `on signal:` frame already at line 1, so
the header folds only `(0, 0)`; this holds both for the 5-line document and
for the 6-line variant with the trailing blank line. -/
theorem C3_counterexample :
    FoldRange.mk 0 5 ∉ denizenScriptFoldingProvider foldExampleDoc ∧
    FoldRange.mk 0 5 ∉ denizenScriptFoldingProvider foldExampleDoc6 ∧
    denizenScriptFoldingProvider foldExampleDoc ≠
      [FoldRange.mk 0 5, FoldRange.mk 1 2, FoldRange.mk 3 4] := by
  decide

/-- Claim C3 (amended): on the example document the folding provider yields
exactly the ranges `(0,0)`, `(1,2)`, `(3,4)` — the zero-indentation `if` line
closes the header's frame immediately, and each `if`/`else` command opens its
own fold for its nested body; with the trailing blank sixth line the last
fold extends to `(3,5)`. -/
theorem C3_amended_folds :
    denizenScriptFoldingProvider foldExampleDoc =
      [FoldRange.mk 0 0, FoldRange.mk 1 2, FoldRange.mk 3 4] ∧
    denizenScriptFoldingProvider foldExampleDoc6 =
      [FoldRange.mk 0 0, FoldRange.mk 1 2, FoldRange.mk 3 5] := by
  decide

/-! ## Claim C4: the fold pop rule -/

/-- Claim C4 (confirmed): at every non-blank line the while-loop pops exactly
the frames in the maximal prefix of the stack satisfying the pop condition
(frame indentation exceeds the line's, or the line's indentation is zero, or
the indentations are equal and the line is a non-command block header or the
frame was opened by a command line), each popped frame yielding the fold
range `(frame.start, currentLine - 1)`; and at end of document every frame
still on the stack yields a range ending at the last line. -/
theorem C4_fold_pop_rule :
    (∀ (spaces : Int) (isBlock isCommand : Bool) (i : Int) (stack : List InProcFold),
      popFolds spaces isBlock isCommand i stack =
        ((stack.takeWhile (fun f => popCond f spaces isBlock isCommand)).map
            (fun f => FoldRange.mk f.start (i - 1)),
          stack.dropWhile (fun f => popCond f spaces isBlock isCommand))) ∧
    (∀ lines : List Str,
      denizenScriptFoldingProvider lines =
        (foldLines lines 0 []).1 ++
          (foldLines lines 0 []).2.map
            (fun f => FoldRange.mk f.start ((lines.length : Int) - 1))) := by
  constructor
  · intro spaces isBlock isCommand i stack
    induction stack with
    | nil => simp [popFolds, List.takeWhile, List.dropWhile]
    | cons f rest ih =>
      by_cases h : popCond f spaces isBlock isCommand
      · simp [popFolds, h, ih, List.takeWhile_cons, List.dropWhile_cons]
      · simp [popFolds, h, List.takeWhile_cons, List.dropWhile_cons]
  · intro lines
    rfl

/-! ## Claim C8: a missing colour configuration crashes the pass -/

/-- Claim C8 is contradicted by the code: when a category (here `command`)
has no style entry, `loadAllColors` logs and skips it, leaving it out of
`highlightDecors`; the full-pass initialisation then creates no list for it
and the first `addDecor` of that category dereferences `undefined`
(`decorations[type].push`), aborting the whole pass — modelled as `none`.
With the full category table the same document classifies fine. -/
theorem C8_missing_color_crash :
    decorateFullFile cfgDefault (colorTypesL.filter (fun c => c ≠ "command"))
        [str "- narrate hi"] freshCache = none ∧
    (decorateFullFile cfgDefault colorTypesL [str "- narrate hi"] freshCache).isSome = true := by
  decide

/-! ## Claim C6: quote immunity -/

/-- The spans of a quoted argument whose `<` is followed by a tag-leading
character. -/
def quotedTagArgEvs : List Ev :=
  decorateArg cfgDefault (str "\"a <b> c\"") 0 0 true (str "cmd:narrate")

/-- The spans of the claim's example argument `"a < b > c"`. -/
def quotedPlainArgEvs : List Ev :=
  decorateArg cfgDefault (str "\"a < b > c\"") 0 0 true (str "cmd:narrate")

/-- Claim C6 counterexample: in the quoted argument `"a <b> c"` (quotes at
columns 0 and 8), the tag-open branch of `decorateArg` is not guarded by the
quote flag, so `<b>` is parsed as a tag and `tag` spans are emitted strictly
inside the quotes — refuting the claim that no tag category is ever emitted
inside a quoted region. -/
theorem C6_counterexample :
    ∃ e ∈ quotedTagArgEvs, e.cat = "tag" ∧ 1 ≤ e.startC ∧ e.endC ≤ 8 := by
  decide

/-- Claim C6 (amended): in the example `"a < b > c"` (quotes at columns 0 and
10), where no `<` is followed by a tag-leading character, no tag or operator
span is emitted at all, and every interior column (1 to 9) is covered only by
the quoted-string category or by the `space` category the scanner gives to
literal spaces even inside quotes. -/
theorem C6_amended_quote_example :
    (∀ e ∈ quotedPlainArgEvs, e.cat ≠ "tag" ∧ e.cat ≠ "if_operators") ∧
    (∀ p : Nat, p < 10 → 1 ≤ p →
      1 ≤ coverCount quotedPlainArgEvs p ∧
      ∀ e ∈ quotedPlainArgEvs, e.startC ≤ (p : Int) ∧ (p : Int) < e.endC →
        e.cat = "quote_double" ∨ e.cat = "space") := by
  decide

/-! ## Claim C7: when data mode closes -/

/-- Claim C7 counterexample: open data mode at anchor 0 with `lore:`; the
following line `- x` has indentation `0 ≤ 0`, so per the claim data mode
should close at that line and the line should be classified as a command —
but `ctxStep` only closes on strictly smaller indentation, the anchor stays
`0`, the line is decorated with `inDataBlock = true` and gets no `command`
span; a blank line, on the other hand, does close an anchor of 2. -/
theorem C7_counterexample :
    (ctxStep (ctxStep ctxInit (str "lore:")) (str "- x")).dds = 0 ∧
    (decorateFullFile cfgDefault colorTypesL [str "lore:", str "- x"] freshCache).isSome = true ∧
    spansAtLine ((decorateFullFile cfgDefault colorTypesL [str "lore:", str "- x"]
        freshCache).getD ([], [], freshCache)).2.1 "command" 1 = [] ∧
    (ctxStep (Ctx.mk "lore" 2) (str "")).dds = -1 := by
  decide

/-- A leading-space count never exceeds the line length. -/
theorem trimStart_length_le (line : Str) : (trimStartJs line).length ≤ line.length :=
  (List.dropWhile_suffix isWs).sublist.length_le

/-- Claim C7 (amended): once data mode is open (`0 ≤ ctx.dds`), a line that is
not a colon block header and not `type: data` keeps it open exactly while its
leading-space count (blank lines counting their full length) is at least the
anchor — it closes only on strictly smaller indentation, so a line at exactly
the anchor indentation is still classified inside the block; a colon block
header closes it whenever its indentation is at most the anchor, immediately
reopening at its own indentation when its key is a recognised data key, and
leaves the anchor untouched when it is indented deeper. -/
theorem C7_amended_data_close (ctx : Ctx) (line : Str) (h0 : 0 ≤ ctx.dds)
    (hnt : trimEndJs (trimStartJs line) ≠ str "type: data") :
    (¬ (endsWithJs (trimEndJs (trimStartJs line)) (str ":") = true ∧
        startsWithJs (trimEndJs (trimStartJs line)) (str "-") = false) →
      ctxStep ctx line =
        ⟨ctx.lastKey,
          if (line.length : Int) - (trimStartJs line).length < ctx.dds then -1 else ctx.dds⟩) ∧
    ((endsWithJs (trimEndJs (trimStartJs line)) (str ":") = true ∧
        startsWithJs (trimEndJs (trimStartJs line)) (str "-") = false) →
      ctxStep ctx line =
        ⟨ofStr (lowerStr (substringJs (trimEndJs (trimStartJs line)) 0
            (((trimEndJs (trimStartJs line)).length : Int) - 1))),
          if (line.length : Int) - (trimStartJs line).length ≤ ctx.dds then
            (if definiteNotScriptKeysL.contains
                (ofStr (lowerStr (substringJs (trimEndJs (trimStartJs line)) 0
                  (((trimEndJs (trimStartJs line)).length : Int) - 1)))) then
              (line.length : Int) - (trimStartJs line).length
            else -1)
          else ctx.dds⟩) := by
  have hsp : (0 : Int) ≤ (line.length : Int) - (trimStartJs line).length := by
    have := trimStart_length_le line
    omega
  constructor
  · intro hnh
    have h1 : ¬ (endsWithJs (trimEndJs (trimStartJs line)) (str ":") = true ∧
        ¬ startsWithJs (trimEndJs (trimStartJs line)) (str "-") = true) := by
      intro hc
      exact hnh ⟨hc.1, by simpa using hc.2⟩
    have h2 : ¬ (trimEndJs (trimStartJs line) = str "type: data" ∧
        (ctx.dds = -1 ∨ (line.length : Int) - (trimStartJs line).length ≤ ctx.dds)) := by
      intro hc
      exact hnt hc.1
    simp only [ctxStep]
    rw [if_neg h1, if_neg h2]
    by_cases hlt : (line.length : Int) - (trimStartJs line).length < ctx.dds
    · simp [hlt]
    · simp [hlt]
  · intro hh
    have h1 : (endsWithJs (trimEndJs (trimStartJs line)) (str ":") = true ∧
        ¬ startsWithJs (trimEndJs (trimStartJs line)) (str "-") = true) :=
      ⟨hh.1, by simp [hh.2]⟩
    simp only [ctxStep]
    rw [if_pos h1]
    by_cases hle : (line.length : Int) - (trimStartJs line).length ≤ ctx.dds
    · by_cases hkey : ofStr (lowerStr (substringJs (trimEndJs (trimStartJs line)) 0
            (((trimEndJs (trimStartJs line)).length : Int) - 1))) ∈ definiteNotScriptKeysL
      · have hnlt : ¬ ((line.length : Int) - (trimStartJs line).length <
            (line.length : Int) - (trimStartJs line).length) := by omega
        simp [hle, hkey, hnlt]
      · have hnlt : ¬ ((line.length : Int) - (trimStartJs line).length < (-1 : Int)) := by omega
        simp [hle, hkey, hnlt]
    · have hnlt : ¬ ((line.length : Int) - (trimStartJs line).length < ctx.dds) := by omega
      have hne : ¬ (ctx.dds = -1) := by omega
      simp [hle, hnlt, hne]

/-- Witness for the amended claim C7: with `lore:` open at anchor 0, the
non-header line `- x` (indentation 0, not smaller than the anchor) keeps data
mode open. -/
theorem C7_amended_witness : ctxStep (Ctx.mk "lore" 0) (str "- x") = Ctx.mk "lore" 0 := by
  have h := (C7_amended_data_close (Ctx.mk "lore" 0) (str "- x") (by decide) (by decide)).1
    (by decide)
  exact h.trans (by decide)

/-! ## Claim C10: the `definitions` trailing-segment flush -/

/-- Claim C10 counterexample: the claim's "in particular for any
single-character value" is wrong for the four characters the scanner
special-cases — the single-character value `[` does get a span (its
`tag_param_bracket` span covers column 0), while a plain single character
like `x` indeed gets none. -/
theorem C10_counterexample :
    coverCount (decorateDefinitionsKey (str "[") 0 0) 0 = 1 ∧
    coverCount (decorateDefinitionsKey (str "x") 0 0) 0 = 0 := by
  decide

/-- The final value of `lastDecor` in the `decorateDefinitionsKey` scan:
each of the four special characters moves the boundary past itself, other
characters leave it. -/
def defnsKeyLastDecor : Str → Nat → Nat → Nat
  | [], _, lastDecor => lastDecor
  | c :: rest, i, lastDecor =>
    if c = '[' ∨ c = ']' ∨ c = ' ' ∨ c = '|' then defnsKeyLastDecor rest (i + 1) (i + 1)
    else defnsKeyLastDecor rest (i + 1) lastDecor

theorem coverCount_nil (p : Int) : coverCount [] p = 0 := rfl

theorem coverCount_cons (e : Ev) (evs : List Ev) (p : Int) :
    coverCount (e :: evs) p =
      (if e.startC ≤ p ∧ p < e.endC then 1 else 0) + coverCount evs p := by
  by_cases h : e.startC ≤ p ∧ p < e.endC
  · simp [coverCount, List.filter_cons, h, Nat.add_comm]
  · simp [coverCount, List.filter_cons, h]

theorem coverCount_cons_mk (c : String) (l a b : Int) (evs : List Ev) (p : Int) :
    coverCount (Ev.mk c l a b :: evs) p =
      (if a ≤ p ∧ p < b then 1 else 0) + coverCount evs p :=
  coverCount_cons _ _ _

theorem coverCount_append (l1 l2 : List Ev) (p : Int) :
    coverCount (l1 ++ l2) p = coverCount l1 p + coverCount l2 p := by
  simp [coverCount, List.filter_append]

/-- How the `decorateDefinitionsKey` scan covers the value's last column:
exactly once unless the final boundary sits exactly one character short of
the end, in which case the last column is uncovered. -/
theorem defnsKey_go_cover_last (arg : Str) (start ln : Int) :
    ∀ rest : Str, ∀ i ld : Nat, ∀ tc : String,
      i + rest.length = arg.length → ld ≤ i → (rest = [] → ld < arg.length) →
      coverCount (decorateDefinitionsKey.go arg start ln rest i ld tc)
          (start + (arg.length : Int) - 1) =
        if defnsKeyLastDecor rest i ld = arg.length - 1 then 0 else 1 := by
  intro rest
  induction rest with
  | nil =>
    intro i ld tc hlen hld hne
    have hldlen : ld < arg.length := hne rfl
    simp only [decorateDefinitionsKey.go, defnsKeyLastDecor]
    by_cases h : (ld : Int) < (arg.length : Int) - 1
    · rw [if_pos h, coverCount_cons_mk, coverCount_nil, if_pos (by omega), if_neg (by omega)]
    · rw [if_neg h, coverCount_nil, if_pos (by omega)]
  | cons c rest2 ih =>
    intro i ld tc hlen hld hne
    have hlen2 : i + 1 + rest2.length = arg.length := by
      simpa [Nat.add_comm, Nat.add_assoc, Nat.add_left_comm] using hlen
    have hi : i < arg.length := by omega
    have hstep : ∀ (c1 c2 tcN : String),
        coverCount (Ev.mk c1 ln (start + ld) (start + i) ::
            Ev.mk c2 ln (start + i) (start + i + 1) ::
            decorateDefinitionsKey.go arg start ln rest2 (i + 1) (i + 1) tcN)
          (start + (arg.length : Int) - 1) =
        if defnsKeyLastDecor rest2 (i + 1) (i + 1) = arg.length - 1 then 0 else 1 := by
      intro c1 c2 tcN
      rw [coverCount_cons_mk, coverCount_cons_mk, if_neg (by omega)]
      by_cases hend : i = arg.length - 1
      · have hr2 : rest2 = [] := List.length_eq_zero.mp (by omega)
        subst hr2
        simp only [decorateDefinitionsKey.go, defnsKeyLastDecor]
        rw [if_neg (by omega : ¬ (((i + 1 : Nat) : Int) < (arg.length : Int) - 1)),
          coverCount_nil, if_pos (by omega), if_neg (by omega)]
      · have hilt : i < arg.length - 1 := by omega
        rw [if_neg (by omega),
          ih (i + 1) (i + 1) tcN hlen2 le_rfl (fun hnil => by omega)]
        omega
    by_cases h1 : c = '['
    · subst h1
      simp only [decorateDefinitionsKey.go, defnsKeyLastDecor, reduceIte]
      exact hstep tc "tag_param_bracket" "tag_param"
    · by_cases h2 : c = ']'
      · subst h2
        simp only [decorateDefinitionsKey.go, defnsKeyLastDecor, reduceIte]
        exact hstep tc "tag_param_bracket" "bad_space"
      · by_cases h3 : c = ' '
        · subst h3
          simp only [decorateDefinitionsKey.go, defnsKeyLastDecor, reduceIte]
          exact hstep tc "space" tc
        · by_cases h4 : c = '|'
          · subst h4
            simp only [decorateDefinitionsKey.go, defnsKeyLastDecor, reduceIte]
            exact hstep tc "normal" "def_name"
          · have hdl : defnsKeyLastDecor (c :: rest2) i ld =
                defnsKeyLastDecor rest2 (i + 1) ld := by
              simp only [defnsKeyLastDecor]
              rw [if_neg (by simp [h1, h2, h3, h4])]
            simp only [decorateDefinitionsKey.go]
            rw [if_neg h1, if_neg h2, if_neg h3, if_neg h4, hdl]
            exact ih (i + 1) ld tc hlen2 (by omega) (fun hnil => by omega)

/-- Claim C10 (amended): `decorateDefinitionsKey` flushes the trailing
segment only when more than one character remains after the last emitted
boundary; whenever the scan ends with exactly one character remaining
(`lastDecor = length - 1`) — in particular for a single-character value whose
character is not `[`, `]`, space or `|` — the final character of the value
receives no span, leaving its last column uncovered. -/
theorem C10_amended_tail_uncovered (arg : Str) (start ln : Int) (hne : arg ≠ [])
    (hld : defnsKeyLastDecor arg 0 0 = arg.length - 1) :
    coverCount (decorateDefinitionsKey arg start ln) (start + (arg.length : Int) - 1) = 0 := by
  have h := defnsKey_go_cover_last arg start ln arg 0 0 "def_name" (by simp) (le_refl 0)
    (fun hnil => absurd hnil hne)
  rw [show decorateDefinitionsKey arg start ln =
      decorateDefinitionsKey.go arg start ln arg 0 0 "def_name" from rfl, h, if_pos hld]

/-- Witness for the amended claim C10: the single-character value `x` has its
only column uncovered. -/
theorem C10_amended_witness :
    coverCount (decorateDefinitionsKey (str "x") 0 0) (0 + (((str "x").length : Int)) - 1) = 0 :=
  C10_amended_tail_uncovered (str "x") 0 0 (by decide) (by decide)

/-! ## Claim C2: total coverage -/

/-- Claim C2 counterexample: a well-formed command line is not tiled by its
spans — in `- narrate hi` (a non-blank line) the space at column 1 between
the dash and the command name belongs to no span, because the dash span ends
at column 1 and the `command` span starts at column 2. -/
theorem C2_counterexample :
    trimStartJs (str "- narrate hi") ≠ [] ∧
    coverCount (decorateLine cfgDefault (str "- narrate hi") 0 "" false) 1 = 0 := by
  decide

/-- The `decorateSpaceable` scan covers each column of `[lastDecor, length)`
(shifted by `preLength`) exactly once. -/
theorem spaceable_go_cover (line : Str) (preLength lineNumber : Int) (decorType : String) :
    ∀ rest : Str, ∀ i ld : Nat, i + rest.length = line.length → ld ≤ i →
      ∀ p : Int,
        coverCount (decorateSpaceable.go line preLength lineNumber decorType rest i ld) p =
          if preLength + ld ≤ p ∧ p < preLength + line.length then 1 else 0 := by
  intro rest
  induction rest with
  | nil =>
    intro i ld hlen hld p
    simp only [decorateSpaceable.go]
    by_cases h : ld < line.length
    · rw [if_pos h, coverCount_cons_mk, coverCount_nil]
      omega
    · rw [if_neg h, coverCount_nil, if_neg (by omega)]
  | cons ch rest2 ih =>
    intro i ld hlen hld p
    have hlen2 : (i + 1) + rest2.length = line.length := by
      simp at hlen
      omega
    have hi : i < line.length := by omega
    simp only [decorateSpaceable.go]
    by_cases hch : ch = ' '
    · rw [if_pos hch, coverCount_cons_mk, coverCount_cons_mk,
        ih (i + 1) (i + 1) hlen2 le_rfl p]
      split_ifs <;> omega
    · rw [if_neg hch, ih (i + 1) ld hlen2 (by omega) p]

/-- A line with no trailing whitespace does not end in a carriage return. -/
theorem endsWith_cr_false_of_trimmed (line : Str) (hTrail : trimEndJs line = line) :
    endsWithJs line (str "\r") = false := by
  cases hrev : line.reverse with
  | nil => simp [endsWithJs, str, hrev, List.isPrefixOf]
  | cons c t =>
    have hdw : line.reverse.dropWhile isWs = line.reverse := by
      have := congrArg List.reverse hTrail
      simpa [trimEndJs] using this
    rw [hrev] at hdw
    have hnc : isWs c = false := by
      by_contra hcon
      simp at hcon
      rw [List.dropWhile_cons, if_pos (by simp [hcon])] at hdw
      have := congrArg List.length hdw
      have hle : (List.dropWhile isWs t).length ≤ t.length :=
        (List.dropWhile_suffix isWs).sublist.length_le
      simp at this
      omega
    have hcne : ¬ (c = '\r') := by
      intro hc
      rw [hc] at hnc
      simp [isWs] at hnc
    simp [endsWithJs, str, hrev, List.isPrefixOf, hcne]
    intro hcon
    exact absurd hcon.symm hcne

/-- Claim C2 (amended): for comment lines — non-blank lines whose trimmed
text starts with `#` — with no trailing whitespace, the emitted spans do
tile the whole line: every column of `[0, length)` lies in exactly one span.
(For command lines the claim fails: see the counterexample, where the column
after the dash is uncovered, and `decorateDefName` can emit two-column
`tag_dot` spans that overlap their neighbour.) -/
theorem C2_amended_comment_tiling (cfg : Config) (line : Str) (n : Int) (k : String) (d : Bool)
    (hTrail : trimEndJs line = line)
    (hComment : startsWithJs (trimStartJs line) (str "#") = true) :
    ∀ p : Nat, p < line.length → coverCount (decorateLine cfg line n k d) p = 1 := by
  intro p hp
  have hcr : crStrip line = line := by
    unfold crStrip
    rw [endsWith_cr_false_of_trimmed line hTrail]
    simp
  have hne : ¬ ((trimStartJs line).length = 0) := by
    intro h0
    rw [List.length_eq_zero.mp h0] at hComment
    simp [startsWithJs, str, List.isPrefixOf] at hComment
  have hcov : ∀ catT : String, coverCount (decorateSpaceable line 0 n catT) p = 1 := by
    intro catT
    have h := spaceable_go_cover line 0 n catT line 0 0 (by simp) (le_refl 0) p
    rw [show decorateSpaceable line 0 n catT =
        decorateSpaceable.go line 0 n catT line 0 0 from rfl, h, if_pos (by omega)]
  simp only [decorateLine, hcr, hTrail]
  rw [if_neg hne, if_pos hComment]
  simp only [ne_eq, not_true_eq_false, if_false, List.nil_append]
  split_ifs <;> exact hcov _

/-- Witness for the amended claim C2: the comment line `# hi` is fully
tiled; column 2 is covered exactly once. -/
theorem C2_amended_witness :
    coverCount (decorateLine cfgDefault (str "# hi") 0 "" false) 2 = 1 :=
  C2_amended_comment_tiling cfgDefault (str "# hi") 0 "" false (by decide) (by decide) 2
    (by decide)

/-! ## Which categories each scanner can emit, and on which line -/

theorem defName_go_events (part : Str) (ln start : Int) :
    ∀ fuel dot li, ∀ ev ∈ decorateDefName.go part ln start fuel dot li,
      (ev.cat = "def_name" ∨ ev.cat = "tag_dot") ∧ ev.line = ln := by
  intro fuel
  induction fuel with
  | zero =>
    intro dot li ev hev
    simp only [decorateDefName.go, List.mem_singleton] at hev
    subst hev
    exact ⟨Or.inl rfl, rfl⟩
  | succ fuel ih =>
    intro dot li ev hev
    simp only [decorateDefName.go] at hev
    by_cases h : dot = -1
    · rw [if_pos h] at hev
      simp only [List.mem_singleton] at hev
      subst hev
      exact ⟨Or.inl rfl, rfl⟩
    · rw [if_neg h] at hev
      simp only [List.mem_cons] at hev
      rcases hev with rfl | rfl | hev
      · exact ⟨Or.inl rfl, rfl⟩
      · exact ⟨Or.inr rfl, rfl⟩
      · exact ih _ _ ev hev

theorem defName_events (part : Str) (ln start : Int) :
    ∀ ev ∈ decorateDefName part ln start,
      (ev.cat = "def_name" ∨ ev.cat = "tag_dot") ∧ ev.line = ln :=
  defName_go_events part ln start _ _ _

theorem spaceable_go_events (line : Str) (preLength ln : Int) (decorType : String) :
    ∀ rest i ld, ∀ ev ∈ decorateSpaceable.go line preLength ln decorType rest i ld,
      (ev.cat = decorType ∨ ev.cat = "space") ∧ ev.line = ln := by
  intro rest
  induction rest with
  | nil =>
    intro i ld ev hev
    simp only [decorateSpaceable.go] at hev
    by_cases h : ld < line.length
    · rw [if_pos h] at hev
      simp only [List.mem_singleton] at hev
      subst hev
      exact ⟨Or.inl rfl, rfl⟩
    · rw [if_neg h] at hev
      simp at hev
  | cons c rest2 ih =>
    intro i ld ev hev
    simp only [decorateSpaceable.go] at hev
    by_cases h : c = ' '
    · rw [if_pos h] at hev
      simp only [List.mem_cons] at hev
      rcases hev with rfl | rfl | hev
      · exact ⟨Or.inl rfl, rfl⟩
      · exact ⟨Or.inr rfl, rfl⟩
      · exact ih _ _ ev hev
    · rw [if_neg h] at hev
      exact ih _ _ ev hev

theorem spaceable_events (line : Str) (preLength ln : Int) (decorType : String) :
    ∀ ev ∈ decorateSpaceable line preLength ln decorType,
      (ev.cat = decorType ∨ ev.cat = "space") ∧ ev.line = ln :=
  spaceable_go_events line preLength ln decorType _ _ _

/-- The categories `decorateEventLine` can emit. -/
def eventLineCats : List String :=
  ["key", "event_line", "space", "event_switch", "colons", "event_switch_value"]

theorem eventLine_go_events (ln preLength : Int) :
    ∀ args charIndex, ∀ ev ∈ decorateEventLine.go preLength ln args charIndex,
      ev.cat ∈ eventLineCats ∧ ev.line = ln := by
  intro args
  induction args with
  | nil =>
    intro charIndex ev hev
    simp [decorateEventLine.go] at hev
  | cons arg rest ih =>
    intro charIndex ev hev
    simp only [decorateEventLine.go, List.mem_append] at hev
    rcases hev with (hev | hev) | hev
    · by_cases h : charIndex > 0
      · rw [if_pos h] at hev
        simp only [List.mem_singleton] at hev
        subst hev
        exact ⟨by simp [eventLineCats], rfl⟩
      · rw [if_neg h] at hev
        simp at hev
    · by_cases h : indexOfJs arg ':' ≠ -1
      · rw [if_pos h] at hev
        simp only [List.mem_cons] at hev
        rcases hev with rfl | rfl | rfl | hev
        · exact ⟨by simp [eventLineCats], rfl⟩
        · exact ⟨by simp [eventLineCats], rfl⟩
        · exact ⟨by simp [eventLineCats], rfl⟩
        · simp at hev
      · rw [if_neg h] at hev
        simp only [List.mem_singleton] at hev
        subst hev
        refine ⟨?_, rfl⟩
        by_cases hk : charIndex = 0 ∧ (arg = str "on" ∨ arg = str "after")
        · simp [if_pos hk, eventLineCats]
        · simp [if_neg hk, eventLineCats]
    · exact ih _ ev hev

theorem eventLine_events (line : Str) (preLength ln : Int) :
    ∀ ev ∈ decorateEventLine line preLength ln, ev.cat ∈ eventLineCats ∧ ev.line = ln :=
  eventLine_go_events ln preLength _ _

/-- The categories `decorateDefinitionsKey` can emit. -/
def defnsKeyCats : List String :=
  ["def_name", "tag_param", "bad_space", "space", "normal", "tag_param_bracket"]

theorem defnsKey_go_events (arg : Str) (start ln : Int) :
    ∀ rest i ld tc, tc ∈ defnsKeyCats →
      ∀ ev ∈ decorateDefinitionsKey.go arg start ln rest i ld tc,
        ev.cat ∈ defnsKeyCats ∧ ev.line = ln := by
  intro rest
  induction rest with
  | nil =>
    intro i ld tc htc ev hev
    simp only [decorateDefinitionsKey.go] at hev
    by_cases h : (ld : Int) < (arg.length : Int) - 1
    · rw [if_pos h] at hev
      simp only [List.mem_singleton] at hev
      subst hev
      exact ⟨htc, rfl⟩
    · rw [if_neg h] at hev
      simp at hev
  | cons c rest2 ih =>
    intro i ld tc htc ev hev
    simp only [decorateDefinitionsKey.go] at hev
    by_cases h1 : c = '['
    · rw [if_pos h1] at hev
      simp only [List.mem_cons] at hev
      rcases hev with rfl | rfl | hev
      · exact ⟨htc, rfl⟩
      · exact ⟨by simp [defnsKeyCats], rfl⟩
      · exact ih _ _ _ (by simp [defnsKeyCats]) ev hev
    · rw [if_neg h1] at hev
      by_cases h2 : c = ']'
      · rw [if_pos h2] at hev
        simp only [List.mem_cons] at hev
        rcases hev with rfl | rfl | hev
        · exact ⟨htc, rfl⟩
        · exact ⟨by simp [defnsKeyCats], rfl⟩
        · exact ih _ _ _ (by simp [defnsKeyCats]) ev hev
      · rw [if_neg h2] at hev
        by_cases h3 : c = ' '
        · rw [if_pos h3] at hev
          simp only [List.mem_cons] at hev
          rcases hev with rfl | rfl | hev
          · exact ⟨htc, rfl⟩
          · exact ⟨by simp [defnsKeyCats], rfl⟩
          · exact ih _ _ _ htc ev hev
        · rw [if_neg h3] at hev
          by_cases h4 : c = '|'
          · rw [if_pos h4] at hev
            simp only [List.mem_cons] at hev
            rcases hev with rfl | rfl | hev
            · exact ⟨htc, rfl⟩
            · exact ⟨by simp [defnsKeyCats], rfl⟩
            · exact ih _ _ _ (by simp [defnsKeyCats]) ev hev
          · rw [if_neg h4] at hev
            exact ih _ _ _ htc ev hev

theorem defnsKey_events (arg : Str) (start ln : Int) :
    ∀ ev ∈ decorateDefinitionsKey arg start ln, ev.cat ∈ defnsKeyCats ∧ ev.line = ln :=
  defnsKey_go_events arg start ln _ _ _ _ (by simp [defnsKeyCats])

theorem tagFlush_events (tag : Str) (start ln : Int) (st : TagSt) (P : String → Prop)
    (hd : P st.defaultDecor) :
    ∀ ev ∈ tagFlush tag start ln st, P ev.cat ∧ ev.line = ln := by
  intro ev hev
  unfold tagFlush at hev
  split at hev
  · simp only [List.mem_singleton] at hev
    subst hev
    exact ⟨hd, rfl⟩
  · simp at hev

/-- Predicate transport for `decorateTag`: if `P` holds for the six fixed
categories the tag scanner uses, for every `auto:` colour, and for the
current default and text colours, then it holds for the category of every
emitted event, and every event carries the given line number. -/
theorem tagGo_events (cfg : Config) (ln : Int) (P : String → Prop)
    (htag : P "tag") (hdot : P "tag_dot") (hparam : P "tag_param")
    (hbracket : P "tag_param_bracket") (hdef : P "def_name") (hspace : P "space")
    (hauto : ∀ c : String, P ("auto:" ++ c)) :
    ∀ fuel (tag : Str) (start : Int) (i : Nat) (st : TagSt),
      P st.defaultDecor → P st.textColor →
      ∀ ev ∈ decorateTagGo cfg fuel tag start ln i st, P ev.cat ∧ ev.line = ln := by
  intro fuel
  induction fuel with
  | zero =>
    intro tag start i st hd ht ev hev
    exact tagFlush_events tag start ln st P hd ev (by simpa [decorateTagGo] using hev)
  | succ fuel ih =>
    intro tag start i st hd ht ev hev
    simp only [decorateTagGo] at hev
    split at hev
    · -- i < tag.length
      split at hev
      · -- character is a tag opener
        split at hev
        · rcases List.mem_cons.mp hev with rfl | hev
          · exact ⟨hd, rfl⟩
          · exact ih _ _ _ _ (by exact htag) (by exact hd) ev hev
        · exact ih _ _ _ _ (by exact hd) (by exact ht) ev hev
      · split at hev
        · -- closing a tag
          split at hev
          · -- depth back to zero: inspect the resolved colour
            split at hev
            · rcases List.mem_cons.mp hev with rfl | hev
              · exact ⟨hauto _, rfl⟩
              rcases List.mem_cons.mp hev with rfl | hev
              · exact ⟨htag, rfl⟩
              rcases List.mem_cons.mp hev with rfl | hev
              · exact ⟨htag, rfl⟩
              exact ih _ _ _ _ (by exact hauto _) (by exact hauto _) ev hev
            · rcases List.mem_append.mp hev with hev | hev
              · exact ih _ _ _ _ (by exact htag) (by exact hparam) ev hev
              rcases List.mem_cons.mp hev with rfl | hev
              · exact ⟨htag, rfl⟩
              refine ih _ _ _ _ ?_ (by exact ht) ev hev
              split
              · exact ht
              · exact htag
          · exact ih _ _ _ _ (by exact hd) (by exact ht) ev hev
        · split at hev
          · -- opening a parameter bracket
            split at hev
            · rcases List.mem_cons.mp hev with rfl | hev
              · exact ⟨hd, rfl⟩
              rcases List.mem_cons.mp hev with rfl | hev
              · exact ⟨hbracket, rfl⟩
              refine ih _ _ _ _ ?_ (by exact ht) ev hev
              split
              · exact hdef
              · split
                · exact hdef
                · exact hparam
            · exact ih _ _ _ _ (by exact hd) (by exact ht) ev hev
          · split at hev
            · -- closing a parameter bracket
              split at hev
              · rcases List.mem_append.mp hev with hev | hev
                · split at hev
                  · simp only [List.mem_singleton] at hev
                    subst hev
                    exact ⟨hauto _, rfl⟩
                  · split at hev
                    · exact (defName_events _ _ _ ev hev).imp
                        (fun h => h.elim (fun h2 => h2 ▸ hdef) (fun h2 => h2 ▸ hdot)) id
                    · simp only [List.mem_singleton] at hev
                      subst hev
                      exact ⟨hd, rfl⟩
                · rcases List.mem_cons.mp hev with rfl | hev
                  · exact ⟨hbracket, rfl⟩
                  exact ih _ _ _ _ (by exact htag) (by exact ht) ev hev
              · exact ih _ _ _ _ (by exact hd) (by exact ht) ev hev
            · split at hev
              · -- a dot or pipe separator
                rcases List.mem_cons.mp hev with rfl | hev
                · exact ⟨hd, rfl⟩
                rcases List.mem_cons.mp hev with rfl | hev
                · exact ⟨hdot, rfl⟩
                exact ih _ _ _ _ (by exact hd) (by exact ht) ev hev
              · split at hev
                · -- a literal space
                  rcases List.mem_cons.mp hev with rfl | hev
                  · exact ⟨hd, rfl⟩
                  rcases List.mem_cons.mp hev with rfl | hev
                  · exact ⟨hspace, rfl⟩
                  exact ih _ _ _ _ (by exact hd) (by exact ht) ev hev
                · exact ih _ _ _ _ (by exact hd) (by exact ht) ev hev
    · exact tagFlush_events tag start ln st P hd ev hev

theorem tag_events (cfg : Config) (tag : Str) (start ln : Int) (P : String → Prop)
    (htag : P "tag") (hdot : P "tag_dot") (hparam : P "tag_param")
    (hbracket : P "tag_param_bracket") (hdef : P "def_name") (hspace : P "space")
    (hauto : ∀ c : String, P ("auto:" ++ c)) :
    ∀ ev ∈ decorateTag cfg tag start ln, P ev.cat ∧ ev.line = ln :=
  tagGo_events cfg ln P htag hdot hparam hbracket hdef hspace hauto _ tag start 0 _ htag hparam

theorem argFlush_events (arg : Str) (start ln : Int) (st : ArgSt) (P : String → Prop)
    (hd : P st.defaultDecor) :
    ∀ ev ∈ argFlush arg start ln st, P ev.cat ∧ ev.line = ln := by
  intro ev hev
  unfold argFlush at hev
  split at hev
  · simp only [List.mem_singleton] at hev
    subst hev
    exact ⟨hd, rfl⟩
  · simp at hev

/-- Predicate transport for the define/definemap/flag sub-grammar step. -/
theorem argDefineStep_events (start ln : Int) (canQuote : Bool) (label : Str) (i : Nat)
    (stSp : ArgSt) (spaceEvs : List Ev) (nextArg : Str) (P : String → Prop)
    (hdef : P "def_name") (hdot : P "tag_dot") (hqd : P "quote_double")
    (hqs : P "quote_single") (hact : P "data_actions")
    (hsp2 : ∀ ev ∈ spaceEvs, P ev.cat ∧ ev.line = ln)
    (hd2 : P stSp.defaultDecor) (ht2 : P stSp.textColor) :
    (∀ ev ∈ (argDefineStep start ln canQuote label i stSp spaceEvs nextArg).1,
      P ev.cat ∧ ev.line = ln) ∧
    P (argDefineStep start ln canQuote label i stSp spaceEvs nextArg).2.2.defaultDecor ∧
    P (argDefineStep start ln canQuote label i stSp spaceEvs nextArg).2.2.textColor := by
  have hquote : ∀ c : Char, P (quoteCat c) := by
    intro c
    unfold quoteCat
    split
    · exact hqd
    · exact hqs
  have hdefn : ∀ (part : Str) (s2 : Int), ∀ ev ∈ decorateDefName part ln s2,
      P ev.cat ∧ ev.line = ln := by
    intro part s2 ev hev
    exact (defName_events part ln s2 ev hev).imp
      (fun h => h.elim (fun h2 => h2 ▸ hdef) (fun h2 => h2 ▸ hdot)) id
  simp only [argDefineStep]
  split
  · refine ⟨?_, ?_, ht2⟩
    · intro ev hev
      rcases List.mem_append.mp hev with hev | hev
      · rcases List.mem_append.mp hev with hev | hev
        · rcases List.mem_append.mp hev with hev | hev
          · exact hsp2 ev hev
          · split at hev
            · simp only [List.mem_singleton] at hev
              subst hev
              exact ⟨hquote _, rfl⟩
            · simp at hev
        · exact hdefn _ _ ev hev
      · split at hev
        · simp only [List.mem_singleton] at hev
          subst hev
          exact ⟨hact, rfl⟩
        · simp at hev
    · split
      · exact hquote _
      · exact hd2
  · exact ⟨hsp2, hd2, ht2⟩

/-- Predicate transport for the deffable-command colon step. -/
theorem argDeffableColon_events (arg : Str) (start ln : Int) (canQuote : Bool) (i : Nat)
    (st : ArgSt) (P : String → Prop)
    (hnormal : P "normal") (hdef : P "def_name") (hdot : P "tag_dot")
    (hqd : P "quote_double") (hqs : P "quote_single")
    (hd : P st.defaultDecor) (ht : P st.textColor) :
    (∀ ev ∈ (argDeffableColon arg start ln canQuote i st).1, P ev.cat ∧ ev.line = ln) ∧
    P (argDeffableColon arg start ln canQuote i st).2.defaultDecor ∧
    P (argDeffableColon arg start ln canQuote i st).2.textColor := by
  have hdefn : ∀ (part : Str) (s2 : Int), ∀ ev ∈ decorateDefName part ln s2,
      P ev.cat ∧ ev.line = ln := by
    intro part s2 ev hev
    exact (defName_events part ln s2 ev hev).imp
      (fun h => h.elim (fun h2 => h2 ▸ hdef) (fun h2 => h2 ▸ hdot)) id
  simp only [argDeffableColon]
  split
  · -- an opening quote precedes the part
    split
    · refine ⟨?_, hd, ht⟩
      intro ev hev
      rcases List.mem_append.mp hev with hev | hev
      · rcases List.mem_cons.mp hev with rfl | hev
        · refine ⟨?_, rfl⟩
          split
          · exact hqd
          · exact hqs
        rcases List.mem_cons.mp hev with rfl | hev
        · exact ⟨hnormal, rfl⟩
        simp at hev
      · exact hdefn _ _ ev hev
    · exact ⟨by simp, hd, ht⟩
  · split
    · refine ⟨?_, hd, ht⟩
      intro ev hev
      rcases List.mem_append.mp hev with hev | hev
      · simp only [List.mem_singleton] at hev
        subst hev
        exact ⟨hd, rfl⟩
      · exact hdefn _ _ ev hev
    · exact ⟨by simp, hd, ht⟩

/-- Predicate transport for the unquoted-space step of `decorateArg`: all
events of the step satisfy `P` and the updated state's colours do. -/
theorem argSpaceStep_events (arg : Str) (start ln : Int) (canQuote : Bool)
    (label : Str) (i : Nat) (st : ArgSt) (P : String → Prop)
    (hnormal : P "normal") (hspace : P "space") (hdef : P "def_name") (hdot : P "tag_dot")
    (hqd : P "quote_double") (hqs : P "quote_single")
    (hops : canQuote = true → P "if_operators" ∧ P "data_actions")
    (hcq : canQuote = true) (hd : P st.defaultDecor) (ht : P st.textColor) :
    (∀ ev ∈ (argSpaceStep arg start ln canQuote label i st).1,
      P ev.cat ∧ ev.line = ln) ∧
    P (argSpaceStep arg start ln canQuote label i st).2.2.defaultDecor ∧
    P (argSpaceStep arg start ln canQuote label i st).2.2.textColor := by
  subst hcq
  have hSp : P (argSpaceReset arg true i st).defaultDecor := by
    show P (if (true : Bool) then "normal" else st.textColor)
    exact hnormal
  have ht2 : P (argSpaceReset arg true i st).textColor := ht
  have hdefn : ∀ (part : Str) (s2 : Int), ∀ ev ∈ decorateDefName part ln s2,
      P ev.cat ∧ ev.line = ln := by
    intro part s2 ev hev
    exact (defName_events part ln s2 ev hev).imp
      (fun h => h.elim (fun h2 => h2 ▸ hdef) (fun h2 => h2 ▸ hdot)) id
  have hsp2 : ∀ ev ∈ argSpaceEvs start ln i st, P ev.cat ∧ ev.line = ln := by
    intro ev hev
    unfold argSpaceEvs at hev
    rcases List.mem_cons.mp hev with rfl | hev
    · exact ⟨hd, rfl⟩
    rcases List.mem_cons.mp hev with rfl | hev
    · exact ⟨hspace, rfl⟩
    simp at hev
  simp only [argSpaceStep]
  split
  · -- operator token
    refine ⟨?_, hSp, ht2⟩
    intro ev hev
    rcases List.mem_append.mp hev with hev | hev
    · exact hsp2 ev hev
    simp only [List.mem_singleton] at hev
    subst hev
    exact ⟨(hops rfl).1, rfl⟩
  · split
    · -- `as:` definition name
      refine ⟨?_, hSp, ht2⟩
      intro ev hev
      rcases List.mem_append.mp hev with hev | hev
      · exact hsp2 ev hev
      rcases List.mem_cons.mp hev with rfl | hev
      · exact ⟨hnormal, rfl⟩
      exact hdefn _ _ ev hev
    · split
      · -- `key:` definition name
        refine ⟨?_, hSp, ht2⟩
        intro ev hev
        rcases List.mem_append.mp hev with hev | hev
        · exact hsp2 ev hev
        rcases List.mem_cons.mp hev with rfl | hev
        · exact ⟨hnormal, rfl⟩
        exact hdefn _ _ ev hev
      · split
        · -- define/definemap/flag
          exact argDefineStep_events start ln true label i _ _ _ P hdef hdot hqd hqs
            (hops rfl).2 hsp2 hSp ht2
        · exact ⟨hsp2, hSp, ht2⟩

/-- Predicate transport for `decorateArg`: if `P` holds for the categories
the argument scanner and its sub-scanners use — with the operator and
data-action categories only needed when quoting is permitted — and for the
current default and text colours, then it holds for every emitted event's
category, and every event carries the given line number. -/
theorem argGo_events (cfg : Config) (arg : Str) (start ln : Int) (canQuote : Bool)
    (label : Str) (P : String → Prop)
    (hnormal : P "normal") (hspace : P "space") (htag : P "tag") (hdot : P "tag_dot")
    (hparam : P "tag_param") (hbracket : P "tag_param_bracket") (hdef : P "def_name")
    (hqd : P "quote_double") (hqs : P "quote_single")
    (hauto : ∀ c : String, P ("auto:" ++ c))
    (hops : canQuote = true → P "if_operators" ∧ P "data_actions") :
    ∀ fuel (i : Nat) (st : ArgSt), P st.defaultDecor → P st.textColor →
      ∀ ev ∈ decorateArgGo cfg arg start ln canQuote label fuel i st,
        P ev.cat ∧ ev.line = ln := by
  have hquote : ∀ c : Char, P (quoteCat c) := by
    intro c
    unfold quoteCat
    split
    · exact hqd
    · exact hqs
  intro fuel
  induction fuel with
  | zero =>
    intro i st hd ht ev hev
    exact argFlush_events arg start ln st P hd ev (by simpa [decorateArgGo] using hev)
  | succ fuel ih =>
    intro i st hd ht ev hev
    simp only [decorateArgGo] at hev
    split at hev
    · -- i < arg.length
      split at hev
      · -- a quote character with quoting permitted
        split at hev
        · rcases List.mem_cons.mp hev with rfl | hev
          · exact ⟨hd, rfl⟩
          rcases List.mem_cons.mp hev with rfl | hev
          · exact ⟨hquote _, rfl⟩
          exact ih _ _ (by exact hnormal) (by exact hnormal) ev hev
        · split at hev
          · rcases List.mem_cons.mp hev with rfl | hev
            · exact ⟨hd, rfl⟩
            exact ih _ _ (by exact hquote _) (by exact hquote _) ev hev
          · exact ih _ _ (by exact hd) (by exact ht) ev hev
      · split at hev
        · -- a tag opens
          split at hev
          · rcases List.mem_cons.mp hev with rfl | hev
            · exact ⟨hd, rfl⟩
            exact ih _ _ (by exact htag) (by exact ht) ev hev
          · exact ih _ _ (by exact hd) (by exact ht) ev hev
        · split at hev
          · -- a tag closes
            split at hev
            · split at hev
              · rcases List.mem_cons.mp hev with rfl | hev
                · exact ⟨htag, rfl⟩
                rcases List.mem_cons.mp hev with rfl | hev
                · exact ⟨hauto _, rfl⟩
                rcases List.mem_cons.mp hev with rfl | hev
                · exact ⟨htag, rfl⟩
                exact ih _ _ (by exact hauto _) (by exact hauto _) ev hev
              · rcases List.mem_append.mp hev with hev | hev
                · exact tag_events cfg _ _ ln P htag hdot hparam hbracket hdef hspace
                    hauto ev hev
                rcases List.mem_cons.mp hev with rfl | hev
                · exact ⟨htag, rfl⟩
                exact ih _ _ (by exact ht) (by exact ht) ev hev
            · exact ih _ _ (by exact hd) (by exact ht) ev hev
          · split at hev
            · -- a colon after a deffable command label
              obtain ⟨hevs, hd2, ht2⟩ :=
                argDeffableColon_events arg start ln canQuote i st P hnormal hdef hdot
                  hqd hqs hd ht
              rcases List.mem_append.mp hev with hev | hev
              · exact hevs ev hev
              · exact ih _ _ (by exact hd2) (by exact ht2) ev hev
            · split at hev
              · -- a space while quoted or with quoting disabled
                rcases List.mem_cons.mp hev with rfl | hev
                · exact ⟨hd, rfl⟩
                rcases List.mem_cons.mp hev with rfl | hev
                · exact ⟨hspace, rfl⟩
                exact ih _ _ (by exact hd) (by exact ht) ev hev
              · split at hev
                · -- the unquoted-space lookahead branch (quoting permitted)
                  rename_i hcond
                  obtain ⟨hevs, hd2, ht2⟩ :=
                    argSpaceStep_events arg start ln canQuote label i st P hnormal hspace
                      hdef hdot hqd hqs hops hcond.2.2.1 hd ht
                  rcases List.mem_append.mp hev with hev | hev
                  · exact hevs ev hev
                  · exact ih _ _ (by exact hd2) (by exact ht2) ev hev
                · exact ih _ _ (by exact hd) (by exact ht) ev hev
    · exact argFlush_events arg start ln st P hd ev hev

theorem arg_events (cfg : Config) (arg : Str) (start ln : Int) (canQuote : Bool)
    (label : Str) (P : String → Prop)
    (hnormal : P "normal") (hspace : P "space") (htag : P "tag") (hdot : P "tag_dot")
    (hparam : P "tag_param") (hbracket : P "tag_param_bracket") (hdef : P "def_name")
    (hqd : P "quote_double") (hqs : P "quote_single")
    (hauto : ∀ c : String, P ("auto:" ++ c))
    (hops : canQuote = true → P "if_operators" ∧ P "data_actions") :
    ∀ ev ∈ decorateArg cfg arg start ln canQuote label, P ev.cat ∧ ev.line = ln :=
  argGo_events cfg arg start ln canQuote label P hnormal hspace htag hdot hparam hbracket
    hdef hqd hqs hauto hops _ _ _ hnormal hnormal

/-- Every on-the-fly colour category starts with the `auto:` marker. -/
theorem isAuto_auto_append (c : String) : isAuto ("auto:" ++ c) = true := by
  unfold isAuto str
  rw [List.isPrefixOf_iff_prefix]
  show ("auto:").data <+: ("auto:" ++ c).data
  rw [String.data_append]
  exact List.prefix_append _ _

/-- An `auto:` colour category is never one of the fixed categories that
lack the marker. -/
theorem auto_append_ne (c : String) (s : String) (hs : isAuto s = false) :
    "auto:" ++ c ≠ s := by
  intro h
  rw [← h] at hs
  rw [isAuto_auto_append] at hs
  cases hs

/-- A string starting with `-` as a character list. -/
theorem startsWith_dash_shape (s : Str) (h : startsWithJs s (str "-") = true) :
    ∃ t, s = '-' :: t := by
  unfold startsWithJs at h
  rw [List.isPrefixOf_iff_prefix] at h
  obtain ⟨t, ht⟩ := h
  exact ⟨t, ht.symm⟩

/-! ## Claim C5: data-mode suppression -/

/-- Claim C5 counterexample: in the document `lore:` / `- say <x>`, line 1
is a dash line inside an open data block whose content contains a
`<...>`-shaped substring, and the full pass emits `tag` category spans for
it — data mode suppresses the command name and the operator grammars, but
`decorateArg` still parses tags even with the `non-script` label. -/
theorem C5_counterexample :
    (decorateFullFile cfgDefault colorTypesL [str "lore:", str "- say <x>"]
        freshCache).isSome = true ∧
    spansAtLine ((decorateFullFile cfgDefault colorTypesL [str "lore:", str "- say <x>"]
        freshCache).getD ([], [], freshCache)).2.1 "tag" 1 ≠ [] := by
  decide

/-- Claim C5 (amended): for every `-` line classified inside an open data
block, the content after the dash is tokenized as a generic argument with
quoting and the command/operator special grammars disabled — no `command`
and no `if_operators` span is ever emitted for such a line — but `<...>`
tag substrings are still parsed and receive tag-category spans. -/
theorem C5_amended_data_mode (cfg : Config) (line : Str) (n : Int) (k : String)
    (hdash : startsWithJs (trimStartJs (trimEndJs (crStrip line))) (str "-") = true) :
    ∀ ev ∈ decorateLine cfg line n k true,
      ev.cat ≠ "command" ∧ ev.cat ≠ "if_operators" := by
  intro ev hev
  obtain ⟨t, ht⟩ := startsWith_dash_shape _ hdash
  have hne : ¬ ((trimStartJs (trimEndJs (crStrip line))).length = 0) := by
    rw [ht]
    simp
  have hhash : startsWithJs (trimStartJs (trimEndJs (crStrip line))) (str "#") = false := by
    rw [ht]
    simp [startsWithJs, str, List.isPrefixOf]
  have h2 : ¬ (startsWithJs (trimStartJs (trimEndJs (crStrip line))) (str "#") = true) := by
    simp [hhash]
  simp only [decorateLine] at hev
  rw [if_neg hne, if_neg h2, if_pos hdash] at hev
  rcases List.mem_append.mp hev with hev | hev
  · split at hev
    · simp only [List.mem_singleton] at hev
      subst hev
      exact ⟨(by decide : ("bad_space" : String) ≠ "command"),
        (by decide : ("bad_space" : String) ≠ "if_operators")⟩
    · simp at hev
  · rcases List.mem_cons.mp hev with rfl | hev
    · exact ⟨(by decide : ("normal" : String) ≠ "command"),
        (by decide : ("normal" : String) ≠ "if_operators")⟩
    · rw [if_pos trivial] at hev
      exact ((arg_events cfg _ _ n false _
        (fun s => s ≠ "command" ∧ s ≠ "if_operators")
        (by decide) (by decide) (by decide) (by decide) (by decide) (by decide) (by decide)
        (by decide) (by decide)
        (fun c => ⟨auto_append_ne c _ (by decide), auto_append_ne c _ (by decide)⟩)
        (fun h => by cases h)) ev hev).1

/-- Witness for the amended claim C5: on the data-mode line `- say <x>`,
even the span covering the would-be command word is not a `command` (nor an
`if_operators`) span. -/
theorem C5_amended_witness :
    ((decorateLine cfgDefault (str "- say <x>") 1 "lore" true).getD 1
        ⟨"", 0, 0, 0⟩).cat ≠ "command" ∧
    ((decorateLine cfgDefault (str "- say <x>") 1 "lore" true).getD 1
        ⟨"", 0, 0, 0⟩).cat ≠ "if_operators" :=
  C5_amended_data_mode cfgDefault (str "- say <x>") 1 "lore" (by decide) _ (by decide)

/-! ## Decoration-map lemmas -/

theorem lookup_map_set_self (m : DecMap) (c : String) (v : List Rng)
    (h : hasKey m c = true) :
    List.lookup c (m.map fun p => if p.1 = c then (c, v) else p) = some v := by
  induction m with
  | nil => simp [hasKey] at h
  | cons p rest ih =>
    rw [List.map_cons]
    by_cases hp : p.1 = c
    · rw [if_pos hp]
      simp [List.lookup]
    · rw [if_neg hp]
      have hne : (c == p.1) = false := beq_eq_false_iff_ne.mpr (fun hc => hp hc.symm)
      have h2 : hasKey rest c = true := by
        simpa [hasKey, List.lookup, hne] using h
      simpa [List.lookup, hne] using ih h2

theorem lookup_map_set_ne (m : DecMap) (c d : String) (v : List Rng) (h : d ≠ c) :
    List.lookup d (m.map fun p => if p.1 = c then (c, v) else p) = List.lookup d m := by
  induction m with
  | nil => rfl
  | cons p rest ih =>
    rw [List.map_cons]
    by_cases hp : p.1 = c
    · rw [if_pos hp]
      have hne : (d == c) = false := beq_eq_false_iff_ne.mpr h
      have hne2 : (d == p.1) = false := hp ▸ hne
      simp [List.lookup, hne, hne2, ih]
    · rw [if_neg hp]
      by_cases hd : d = p.1
      · simp [List.lookup, hd]
      · have hne : (d == p.1) = false := beq_eq_false_iff_ne.mpr hd
        simp [List.lookup, hne, ih]

theorem lookup_append_single_self (m : DecMap) (c : String) (v : List Rng)
    (h : hasKey m c = false) :
    List.lookup c (m ++ [(c, v)]) = some v := by
  induction m with
  | nil => simp [List.lookup]
  | cons p rest ih =>
    have hp : (c == p.1) = false := by
      by_contra hcon
      have : (c == p.1) = true := by
        cases hb : (c == p.1)
        · exact absurd hb hcon
        · rfl
      simp [hasKey, List.lookup, this] at h
    have h2 : hasKey rest c = false := by
      simpa [hasKey, List.lookup, hp] using h
    simpa [List.lookup, hp] using ih h2

theorem lookup_append_single_ne (m : DecMap) (c d : String) (v : List Rng) (h : d ≠ c) :
    List.lookup d (m ++ [(c, v)]) = List.lookup d m := by
  have hne : (d == c) = false := beq_eq_false_iff_ne.mpr h
  induction m with
  | nil => simp [List.lookup, hne]
  | cons p rest ih =>
    cases hb : (d == p.1) <;> simp [List.lookup, hb, ih]

theorem lookup_pushKey_self (m : DecMap) (c : String) (r : Rng) :
    List.lookup c (pushKey m c r) = (List.lookup c m).map (fun l => l ++ [r]) := by
  induction m with
  | nil => rfl
  | cons p rest ih =>
    rw [pushKey, List.map_cons]
    by_cases hp : p.1 = c
    · rw [if_pos hp]
      subst hp
      simp [List.lookup]
    · rw [if_neg hp]
      have hne : (c == p.1) = false := beq_eq_false_iff_ne.mpr (fun hc => hp hc.symm)
      rw [pushKey] at ih
      simpa [List.lookup, hne] using ih

theorem lookup_pushKey_ne (m : DecMap) (c d : String) (r : Rng) (h : d ≠ c) :
    List.lookup d (pushKey m c r) = List.lookup d m := by
  induction m with
  | nil => rfl
  | cons p rest ih =>
    rw [pushKey, List.map_cons]
    rw [pushKey] at ih
    by_cases hp : p.1 = c
    · rw [if_pos hp]
      have hne : (d == p.1) = false := beq_eq_false_iff_ne.mpr (hp ▸ h)
      simpa [List.lookup, hne] using ih
    · rw [if_neg hp]
      by_cases hd : d = p.1
      · simp [List.lookup, hd]
      · have hne : (d == p.1) = false := beq_eq_false_iff_ne.mpr hd
        simpa [List.lookup, hne] using ih

theorem hasKey_iff_mem_keysOf (m : DecMap) (c : String) :
    hasKey m c = true ↔ c ∈ keysOf m := by
  induction m with
  | nil => simp [hasKey, keysOf]
  | cons p rest ih =>
    by_cases hp : c = p.1
    · simp [hasKey, keysOf, List.lookup, hp]
    · have hne : (c == p.1) = false := beq_eq_false_iff_ne.mpr hp
      simp only [hasKey, keysOf, List.lookup, hne, List.map_cons, List.mem_cons]
      rw [show ((List.lookup c rest).isSome = true ↔ c ∈ List.map (fun x => x.1) rest) from ih]
      exact ⟨Or.inr, fun hx => hx.elim (fun he => absurd he hp) id⟩

theorem lookupSpans_nil_of_not_hasKey (m : DecMap) (c : String) (h : hasKey m c = false) :
    lookupSpans m c = [] := by
  unfold lookupSpans
  unfold hasKey at h
  cases hl : List.lookup c m with
  | none => simp
  | some v => rw [hl] at h; simp at h

theorem keysOf_map_fst (m : DecMap) (f : String × List Rng → String × List Rng)
    (hf : ∀ p, (f p).1 = p.1) : keysOf (m.map f) = keysOf m := by
  unfold keysOf
  rw [List.map_map]
  exact List.map_congr_left (fun p _ => hf p)

theorem keysOf_pushKey (m : DecMap) (c : String) (r : Rng) :
    keysOf (pushKey m c r) = keysOf m := by
  refine keysOf_map_fst m _ (fun p => ?_)
  by_cases hp : p.1 = c <;> simp [hp]

theorem keysOf_setKey_of_hasKey (m : DecMap) (c : String) (v : List Rng)
    (h : hasKey m c = true) : keysOf (setKey m c v) = keysOf m := by
  unfold setKey
  rw [if_pos h]
  refine keysOf_map_fst m _ (fun p => ?_)
  by_cases hp : p.1 = c <;> simp [hp]

theorem keysOf_setKey_of_not_hasKey (m : DecMap) (c : String) (v : List Rng)
    (h : hasKey m c = false) : keysOf (setKey m c v) = keysOf m ++ [c] := by
  unfold setKey
  rw [h]
  simp [keysOf]

theorem lookupSpans_pushKey_self (m : DecMap) (c : String) (r : Rng)
    (h : hasKey m c = true) :
    lookupSpans (pushKey m c r) c = lookupSpans m c ++ [r] := by
  unfold lookupSpans
  rw [lookup_pushKey_self]
  unfold hasKey at h
  cases hl : List.lookup c m with
  | none => rw [hl] at h; simp at h
  | some l => simp

theorem lookupSpans_pushKey_ne (m : DecMap) (c d : String) (r : Rng) (h : d ≠ c) :
    lookupSpans (pushKey m c r) d = lookupSpans m d := by
  unfold lookupSpans
  rw [lookup_pushKey_ne m c d r h]

theorem lookupSpans_setKey_self (m : DecMap) (c : String) (v : List Rng) :
    lookupSpans (setKey m c v) c = v := by
  unfold setKey
  cases hk : hasKey m c with
  | true =>
    rw [if_pos rfl]
    unfold lookupSpans
    rw [lookup_map_set_self m c v hk]
    rfl
  | false =>
    rw [if_neg (by simp)]
    unfold lookupSpans
    rw [lookup_append_single_self m c v hk]
    rfl

theorem lookupSpans_setKey_ne (m : DecMap) (c d : String) (v : List Rng) (h : d ≠ c) :
    lookupSpans (setKey m c v) d = lookupSpans m d := by
  unfold setKey
  cases hk : hasKey m c with
  | true =>
    rw [if_pos rfl]
    unfold lookupSpans
    rw [lookup_map_set_ne m c d v h]
  | false =>
    rw [if_neg (by simp)]
    unfold lookupSpans
    rw [lookup_append_single_ne m c d v h]

/-! ## Characterising `applyEvents` -/

theorem applyEv_cases (reg : List String) (m : DecMap) (e : Ev)
    (reg1 : List String) (m1 : DecMap) (h : applyEv reg m e = some (reg1, m1)) :
    (¬ e.cat ∈ reg ∧ isAuto e.cat = true ∧ reg1 = reg ++ [e.cat] ∧
       m1 = pushKey (setKey m e.cat []) e.cat e.toRng) ∨
    (hasKey m e.cat = true ∧ reg1 = reg ∧ m1 = pushKey m e.cat e.toRng) := by
  unfold applyEv at h
  by_cases hc : ¬ reg.contains e.cat ∧ isAuto e.cat
  · rw [if_pos hc] at h
    obtain ⟨h1, h2⟩ := Prod.mk.injEq .. ▸ Option.some.injEq .. ▸ h
    exact Or.inl ⟨by simpa [List.contains, List.elem_iff] using hc.1, hc.2, h1.symm, h2.symm⟩
  · rw [if_neg hc] at h
    by_cases hk : hasKey m e.cat
    · rw [if_pos hk] at h
      obtain ⟨h1, h2⟩ := Prod.mk.injEq .. ▸ Option.some.injEq .. ▸ h
      exact Or.inr ⟨hk, h1.symm, h2.symm⟩
    · rw [if_neg hk] at h
      cases h

theorem applyEv_keys (reg : List String) (m : DecMap) (e : Ev)
    (reg1 : List String) (m1 : DecMap) (hk : keysOf m = reg)
    (h : applyEv reg m e = some (reg1, m1)) : keysOf m1 = reg1 := by
  rcases applyEv_cases reg m e reg1 m1 h with ⟨hnc, _, hreg, hm⟩ | ⟨hhk, hreg, hm⟩
  · have hnk : hasKey m e.cat = false := by
      cases hb : hasKey m e.cat
      · rfl
      · exact absurd (hk ▸ (hasKey_iff_mem_keysOf m e.cat).mp hb) hnc
    rw [hm, keysOf_pushKey, keysOf_setKey_of_not_hasKey m e.cat [] hnk, hk, hreg]
  · rw [hm, keysOf_pushKey, hk, hreg]

theorem applyEvents_spec (evs : List Ev) : ∀ (reg : List String) (m : DecMap)
    (reg2 : List String) (m2 : DecMap),
    keysOf m = reg → applyEvents reg m evs = some (reg2, m2) →
    keysOf m2 = reg2 ∧
    ∀ c, lookupSpans m2 c =
      lookupSpans m c ++ (List.filter (fun e => e.cat = c) evs).map Ev.toRng := by
  induction evs with
  | nil =>
    intro reg m reg2 m2 hk h
    obtain ⟨h1, h2⟩ : reg = reg2 ∧ m = m2 := by simpa [applyEvents] using h
    subst h1; subst h2
    exact ⟨hk, fun c => by simp⟩
  | cons e rest ih =>
    intro reg m reg2 m2 hk h
    rw [applyEvents] at h
    cases hae : applyEv reg m e with
    | none => rw [hae] at h; cases h
    | some p =>
      obtain ⟨reg1, m1⟩ := p
      rw [hae] at h
      have hknew : keysOf m1 = reg1 := applyEv_keys reg m e reg1 m1 hk hae
      obtain ⟨hk2, hlk⟩ := ih reg1 m1 reg2 m2 hknew h
      refine ⟨hk2, fun c => ?_⟩
      rw [hlk c]
      rcases applyEv_cases reg m e reg1 m1 hae with ⟨hnc, hauto, hreg, hm⟩ | ⟨hhk, hreg, hm⟩
      · have hnk : hasKey m e.cat = false := by
          cases hb : hasKey m e.cat
          · rfl
          · exact absurd (hk ▸ (hasKey_iff_mem_keysOf m e.cat).mp hb) hnc
        by_cases hc : e.cat = c
        · subst hc
          rw [List.filter_cons_of_pos (by simp)]
          have hk1 : hasKey (setKey m e.cat []) e.cat = true := by
            rw [hasKey_iff_mem_keysOf, keysOf_setKey_of_not_hasKey m e.cat [] hnk]
            exact List.mem_append_right _ (List.mem_singleton.mpr rfl)
          rw [hm, lookupSpans_pushKey_self _ _ _ hk1, lookupSpans_setKey_self,
            lookupSpans_nil_of_not_hasKey m e.cat hnk]
          simp
        · rw [List.filter_cons_of_neg (by simpa using hc)]
          rw [hm, lookupSpans_pushKey_ne _ _ _ _ (fun hx => hc hx.symm),
            lookupSpans_setKey_ne _ _ _ _ (fun hx => hc hx.symm)]
      · by_cases hc : e.cat = c
        · subst hc
          rw [List.filter_cons_of_pos (by simp)]
          rw [hm, lookupSpans_pushKey_self _ _ _ hhk]
          simp
        · rw [List.filter_cons_of_neg (by simpa using hc)]
          rw [hm, lookupSpans_pushKey_ne _ _ _ _ (fun hx => hc hx.symm)]

theorem applyEvents_mono (evs : List Ev) : ∀ (reg : List String) (m : DecMap)
    (reg2 : List String) (m2 : DecMap),
    applyEvents reg m evs = some (reg2, m2) → ∀ c ∈ reg, c ∈ reg2 := by
  induction evs with
  | nil =>
    intro reg m reg2 m2 h c hc
    obtain ⟨h1, _⟩ : reg = reg2 ∧ m = m2 := by simpa [applyEvents] using h
    exact h1 ▸ hc
  | cons e rest ih =>
    intro reg m reg2 m2 h c hc
    rw [applyEvents] at h
    cases hae : applyEv reg m e with
    | none => rw [hae] at h; cases h
    | some p =>
      obtain ⟨reg1, m1⟩ := p
      rw [hae] at h
      rcases applyEv_cases reg m e reg1 m1 hae with ⟨_, _, hreg, _⟩ | ⟨_, hreg, _⟩
      · exact ih reg1 m1 reg2 m2 h c (hreg ▸ List.mem_append_left _ hc)
      · exact ih reg1 m1 reg2 m2 h c (hreg ▸ hc)

theorem applyEvents_events_in (evs : List Ev) : ∀ (reg : List String) (m : DecMap)
    (reg2 : List String) (m2 : DecMap),
    keysOf m = reg → applyEvents reg m evs = some (reg2, m2) →
    ∀ ev ∈ evs, ev.cat ∈ reg2 ∨ isAuto ev.cat = true := by
  induction evs with
  | nil => intro reg m reg2 m2 _ _ ev hev; cases hev
  | cons e rest ih =>
    intro reg m reg2 m2 hk h ev hev
    rw [applyEvents] at h
    cases hae : applyEv reg m e with
    | none => rw [hae] at h; cases h
    | some p =>
      obtain ⟨reg1, m1⟩ := p
      rw [hae] at h
      have hknew : keysOf m1 = reg1 := applyEv_keys reg m e reg1 m1 hk hae
      rcases List.mem_cons.mp hev with he | hrest
      · subst he
        rcases applyEv_cases reg m ev reg1 m1 hae with ⟨_, hauto, _, _⟩ | ⟨hhk, hreg, _⟩
        · exact Or.inr hauto
        · refine Or.inl (applyEvents_mono rest reg1 m1 reg2 m2 h ev.cat ?_)
          rw [hreg, ← hk]
          exact (hasKey_iff_mem_keysOf m ev.cat).mp hhk
      · exact ih reg1 m1 reg2 m2 hknew h ev hrest

theorem applyEvents_total (evs : List Ev) : ∀ (reg : List String) (m : DecMap),
    keysOf m = reg →
    (∀ ev ∈ evs, ev.cat ∈ reg ∨ isAuto ev.cat = true) →
    ∃ p, applyEvents reg m evs = some p := by
  induction evs with
  | nil => intro reg m _ _; exact ⟨(reg, m), rfl⟩
  | cons e rest ih =>
    intro reg m hk hin
    have hstep : ∃ q, applyEv reg m e = some q := by
      unfold applyEv
      by_cases hc : ¬ reg.contains e.cat ∧ isAuto e.cat
      · rw [if_pos hc]; exact ⟨_, rfl⟩
      · rw [if_neg hc]
        have hcat : e.cat ∈ reg := by
          rcases hin e (List.mem_cons_self e rest) with h | h
          · exact h
          · by_contra hmem
            exact hc ⟨by simpa [List.contains, List.elem_iff] using hmem, h⟩
        have hhk : hasKey m e.cat = true :=
          (hasKey_iff_mem_keysOf m e.cat).mpr (by rw [hk]; exact hcat)
        rw [if_pos hhk]; exact ⟨_, rfl⟩
    obtain ⟨⟨reg1, m1⟩, hae⟩ := hstep
    have hknew : keysOf m1 = reg1 := applyEv_keys reg m e reg1 m1 hk hae
    have hin1 : ∀ ev ∈ rest, ev.cat ∈ reg1 ∨ isAuto ev.cat = true := by
      intro ev hev
      rcases hin ev (List.mem_cons_of_mem e hev) with h | h
      · refine Or.inl ?_
        rcases applyEv_cases reg m e reg1 m1 hae with ⟨_, _, hreg, _⟩ | ⟨_, hreg, _⟩
        · exact hreg ▸ List.mem_append_left _ h
        · exact hreg ▸ h
      · exact Or.inr h
    obtain ⟨p, hp⟩ := ih reg1 m1 hknew hin1
    exact ⟨p, by rw [applyEvents, hae]; exact hp⟩

/-- The keys of the freshly initialised `decorations` object are exactly the
registered categories, in order. -/
theorem keysOf_init (reg : List String) :
    keysOf (List.map (fun c => (c, ([] : List Rng))) reg) = reg := by
  unfold keysOf
  rw [List.map_map]
  exact List.map_id' reg

/-- Every category starts with no spans in the freshly initialised map. -/
theorem lookupSpans_init (reg : List String) (c : String) :
    lookupSpans (List.map (fun c => (c, ([] : List Rng))) reg) c = [] := by
  induction reg with
  | nil => rfl
  | cons a rest ih =>
    by_cases hc : c = a
    · simp [lookupSpans, List.lookup, hc]
    · have hne : (c == a) = false := beq_eq_false_iff_ne.mpr hc
      simpa [lookupSpans, List.lookup, hne] using ih

/-- When there is no pending dirty region (or no cached spans at all),
`decorateFullFile` takes the from-scratch path: one pass over all lines
applied to a freshly initialised map. -/
theorem decorateFullFile_full (cfg : Config) (reg : List String) (lines : List Str)
    (hl : HighlightCache)
    (h : hl.needRefreshStartLine = -1 ∨ hl.lastDecorations = []) :
    decorateFullFile cfg reg lines hl =
      (applyEvents reg (List.map (fun c => (c, ([] : List Rng))) reg)
          (passEvents cfg lines 0 lines.length)).map
        (fun p => (p.1, p.2, ⟨-1, -1, 0, p.2⟩)) := by
  by_cases he : hl.lastDecorations.isEmpty = true
  · simp [decorateFullFile, he]
  · rcases h with h' | h'
    · simp [decorateFullFile, he, h']
    · exact absurd (by simp [h']) he

/-- C9: Idempotence.  If the initial full pass over a fresh cache succeeds,
producing registry `r1`, span map `m1` and cache `hc1`, then re-running
`decorateFullFile` over that already-clean state (no pending dirty region,
spans cached from the first pass) succeeds and produces exactly the same
per-category span set. -/
theorem C9_idempotence (cfg : Config) (reg : List String) (lines : List Str)
    (r1 : List String) (m1 : DecMap) (hc1 : HighlightCache)
    (hrun : decorateFullFile cfg reg lines freshCache = some (r1, m1, hc1)) :
    ∃ r2 m2 hc2, decorateFullFile cfg r1 lines hc1 = some (r2, m2, hc2) ∧
      ∀ c, lookupSpans m2 c = lookupSpans m1 c := by
  rw [decorateFullFile_full cfg reg lines freshCache (Or.inr rfl)] at hrun
  obtain ⟨⟨r1', m1'⟩, happ, heq⟩ := Option.map_eq_some'.mp hrun
  injection heq with h1 h23
  injection h23 with h2 h3
  subst h1
  subst h2
  subst h3
  obtain ⟨hk1, hlk1⟩ :=
    applyEvents_spec (passEvents cfg lines 0 lines.length) reg _ r1' m1'
      (keysOf_init reg) happ
  have hin := applyEvents_events_in (passEvents cfg lines 0 lines.length) reg _ r1' m1'
    (keysOf_init reg) happ
  obtain ⟨⟨r2, m2⟩, h2run⟩ :=
    applyEvents_total (passEvents cfg lines 0 lines.length) r1' _ (keysOf_init r1') hin
  refine ⟨r2, m2, ⟨-1, -1, 0, m2⟩, ?_, ?_⟩
  · rw [decorateFullFile_full cfg r1' lines _ (Or.inl rfl), h2run]
    rfl
  · intro c
    obtain ⟨_, hlk2⟩ :=
      applyEvents_spec (passEvents cfg lines 0 lines.length) r1' _ r2 m2
        (keysOf_init r1') h2run
    rw [hlk2 c, hlk1 c, lookupSpans_init, lookupSpans_init]

/-- The span map the initial pass over the document `["a:"]` computes: a
`key` span on the `a` and a `colons` span on the `:`. -/
def C9map : DecMap := colorTypesL.map (fun c =>
  (c, if c = "key" then [⟨0, 0, 0, 1⟩] else if c = "colons" then [⟨0, 1, 0, 2⟩] else []))

set_option maxHeartbeats 1500000 in
/-- Every event `decorateLine` emits has a category that is either one of the
fixed `colorTypes` names or an on-the-fly `auto:` colour, and carries the
line number it was called with. -/
theorem decorateLine_events (cfg : Config) (rawLine : Str) (n : Int) (k : String)
    (isData : Bool) :
    ∀ ev ∈ decorateLine cfg rawLine n k isData,
      (ev.cat ∈ colorTypesL ∨ isAuto ev.cat = true) ∧ ev.line = n := by
  have hsub1 : ∀ s ∈ eventLineCats, s ∈ colorTypesL := by decide
  have hsub2 : ∀ s ∈ defnsKeyCats, s ∈ colorTypesL := by decide
  have harg : ∀ (a : Str) (st : Int) (cq : Bool) (lb : Str),
      ∀ ev ∈ decorateArg cfg a st n cq lb,
        (ev.cat ∈ colorTypesL ∨ isAuto ev.cat = true) ∧ ev.line = n := by
    intro a st cq lb
    exact arg_events cfg a st n cq lb (fun s => s ∈ colorTypesL ∨ isAuto s = true)
      (Or.inl (by decide)) (Or.inl (by decide)) (Or.inl (by decide)) (Or.inl (by decide))
      (Or.inl (by decide)) (Or.inl (by decide)) (Or.inl (by decide)) (Or.inl (by decide))
      (Or.inl (by decide)) (fun c => Or.inr (isAuto_auto_append c))
      (fun _ => ⟨Or.inl (by decide), Or.inl (by decide)⟩)
  have hspc : ∀ (l2 : Str) (pre : Int) (dt : String), dt ∈ colorTypesL →
      ∀ ev ∈ decorateSpaceable l2 pre n dt,
        (ev.cat ∈ colorTypesL ∨ isAuto ev.cat = true) ∧ ev.line = n := by
    intro l2 pre dt hdt ev hev
    obtain ⟨hc, hl⟩ := spaceable_events l2 pre n dt ev hev
    rcases hc with hc | hc
    · exact ⟨Or.inl (by rw [hc]; exact hdt), hl⟩
    · exact ⟨Or.inl (by rw [hc]; decide), hl⟩
  have hcom : ∀ (l2 : Str) (dt : String), dt ∈ colorTypesL →
      ∀ ev ∈ decorateComment l2 n dt,
        (ev.cat ∈ colorTypesL ∨ isAuto ev.cat = true) ∧ ev.line = n := by
    intro l2 dt hdt ev hev
    exact hspc l2 0 dt hdt ev (by simpa [decorateComment] using hev)
  have hevl : ∀ (l2 : Str) (pre : Int),
      ∀ ev ∈ decorateEventLine l2 pre n,
        (ev.cat ∈ colorTypesL ∨ isAuto ev.cat = true) ∧ ev.line = n := by
    intro l2 pre ev hev
    obtain ⟨hc, hl⟩ := eventLine_events l2 pre n ev hev
    exact ⟨Or.inl (hsub1 _ hc), hl⟩
  have hdk : ∀ (a : Str) (st : Int),
      ∀ ev ∈ decorateDefinitionsKey a st n,
        (ev.cat ∈ colorTypesL ∨ isAuto ev.cat = true) ∧ ev.line = n := by
    intro a st ev hev
    obtain ⟨hc, hl⟩ := defnsKey_events a st n ev hev
    exact ⟨Or.inl (hsub2 _ hc), hl⟩
  intro ev hev
  simp only [decorateLine] at hev
  by_cases h0 : (trimStartJs (trimEndJs (crStrip rawLine))).length = 0
  · rw [if_pos h0] at hev
    simp at hev
  · rw [if_neg h0] at hev
    rcases List.mem_append.mp hev with hev | hev
    · split at hev
      · rcases List.mem_singleton.mp hev with rfl
        exact ⟨Or.inl (by simp [colorTypesL]), rfl⟩
      · simp at hev
    · by_cases h1 : startsWithJs (trimStartJs (trimEndJs (crStrip rawLine))) (str "#") = true
      · rw [if_pos h1] at hev
        repeat' split at hev
        all_goals exact hcom _ _ (by decide) ev hev
      · rw [if_neg h1] at hev
        by_cases h2 : startsWithJs (trimStartJs (trimEndJs (crStrip rawLine))) (str "-") = true
        · rw [if_pos h2] at hev
          rcases List.mem_cons.mp hev with rfl | hev
          · exact ⟨Or.inl (by simp [colorTypesL]), rfl⟩
          · by_cases hd : isData = true
            · rw [if_pos hd] at hev
              exact harg _ _ _ _ ev hev
            · rw [if_neg hd] at hev
              rcases List.mem_append.mp hev with hev | hev
              · repeat' split at hev
                all_goals first
                  | exact absurd hev (List.not_mem_nil ev)
                  | (rcases List.mem_singleton.mp hev with rfl;
                      exact ⟨Or.inl (by simp [colorTypesL]), rfl⟩)
              · repeat' split at hev
                all_goals first
                  | exact absurd hev (List.not_mem_nil ev)
                  | exact harg _ _ _ _ ev hev
                  | ((rcases List.mem_cons.mp hev with rfl | hev) <;>
                      first
                        | exact ⟨Or.inl (by simp [colorTypesL]), rfl⟩
                        | exact harg _ _ _ _ ev hev
                        | exact absurd hev (List.not_mem_nil ev))
        · rw [if_neg h2] at hev
          by_cases h3 : endsWithJs (trimStartJs (trimEndJs (crStrip rawLine))) (str ":") = true
          · rw [if_pos h3] at hev
            rcases List.mem_append.mp hev with hev | hev
            · repeat' split at hev
              all_goals first
                | exact hevl _ _ ev hev
                | exact hspc _ _ _ (by decide) ev hev
            · rcases List.mem_singleton.mp hev with rfl
              exact ⟨Or.inl (by simp [colorTypesL]), rfl⟩
          · rw [if_neg h3] at hev
            by_cases h4 : containsSub (trimStartJs (trimEndJs (crStrip rawLine)))
                (str ": ") = true
            · rw [if_pos h4] at hev
              rcases List.mem_append.mp hev with hev | hev
              · exact hspc _ _ _ (by decide) ev hev
              · rcases List.mem_cons.mp hev with rfl | hev
                · exact ⟨Or.inl (by simp [colorTypesL]), rfl⟩
                · rcases List.mem_cons.mp hev with rfl | hev
                  · exact ⟨Or.inl (by simp [colorTypesL]), rfl⟩
                  · repeat' split at hev
                    all_goals first
                      | exact hdk _ _ ev hev
                      | exact harg _ _ _ _ ev hev
            · rw [if_neg h4] at hev
              rcases List.mem_singleton.mp hev with rfl
              exact ⟨Or.inl (by simp [colorTypesL]), rfl⟩

/-- The cross-line context after the first `i` lines have been processed. -/
def ctxAt (lines : List Str) (i : Nat) : Ctx := (lines.take i).foldl ctxStep ctxInit

theorem ctxAt_succ (lines : List Str) (i : Nat) (h : i < lines.length) :
    ctxAt lines (i + 1) = ctxStep (ctxAt lines i) (lines.getD i []) := by
  unfold ctxAt
  rw [List.take_succ, List.getElem?_eq_getElem h, List.foldl_append]
  have hg : lines.getD i [] = lines[i] := by
    show (lines.get? i).getD [] = _
    rw [List.get?_eq_get h]
    rfl
  rw [hg]
  rfl

theorem lineEventsCtx_line (cfg : Config) (lines : List Str) (j : Nat) :
    ∀ ev ∈ lineEventsCtx cfg lines j, ev.line = (j : Int) :=
  fun ev hev => (decorateLine_events cfg (lines.getD j []) j
    (ctxAt lines (j + 1)).lastKey (decide ((ctxAt lines (j + 1)).dds ≠ -1)) ev hev).2

theorem lineEventsCtx_cats (cfg : Config) (lines : List Str) (j : Nat) :
    ∀ ev ∈ lineEventsCtx cfg lines j, ev.cat ∈ colorTypesL ∨ isAuto ev.cat = true :=
  fun ev hev => (decorateLine_events cfg (lines.getD j []) j
    (ctxAt lines (j + 1)).lastKey (decide ((ctxAt lines (j + 1)).dds ≠ -1)) ev hev).1

theorem passEventsGo_eq (cfg : Config) (lines : List Str) (startN : Nat) :
    ∀ (rem i : Nat), i + rem ≤ lines.length →
      passEventsGo cfg lines startN rem i (ctxAt lines i) =
        ((List.range' i rem).map (fun j =>
          if startN ≤ j then lineEventsCtx cfg lines j else [])).flatten := by
  intro rem
  induction rem with
  | zero => intro i _; rfl
  | succ rem ih =>
    intro i h
    have hi : i < lines.length := by omega
    have hctx : ctxStep (ctxAt lines i) (lines.getD i []) = ctxAt lines (i + 1) :=
      (ctxAt_succ lines i hi).symm
    rw [passEventsGo, hctx, ih (i + 1) (by omega)]
    rw [List.range'_succ, List.map_cons, List.flatten_cons]
    rfl

theorem passEvents_eq (cfg : Config) (lines : List Str) (startN endN : Nat)
    (h : endN ≤ lines.length) :
    passEvents cfg lines startN endN =
      ((List.range' 0 endN).map (fun j =>
        if startN ≤ j then lineEventsCtx cfg lines j else [])).flatten := by
  unfold passEvents
  have h0 : ctxInit = ctxAt lines 0 := rfl
  rw [h0, passEventsGo_eq cfg lines startN endN 0 (by omega)]

/-- Every event a successful `applyEvents` run consumed has its category in
the final registry (non-`auto:` categories were already registered, `auto:`
ones get registered on first use). -/
theorem applyEvents_events_reg (evs : List Ev) : ∀ (reg : List String) (m : DecMap)
    (reg2 : List String) (m2 : DecMap),
    keysOf m = reg → applyEvents reg m evs = some (reg2, m2) →
    ∀ ev ∈ evs, ev.cat ∈ reg2 := by
  induction evs with
  | nil => intro reg m reg2 m2 _ _ ev hev; cases hev
  | cons e rest ih =>
    intro reg m reg2 m2 hk h ev hev
    rw [applyEvents] at h
    cases hae : applyEv reg m e with
    | none => rw [hae] at h; cases h
    | some p =>
      obtain ⟨reg1, m1⟩ := p
      rw [hae] at h
      have hknew := applyEv_keys reg m e reg1 m1 hk hae
      rcases List.mem_cons.mp hev with he | hrest
      · subst he
        refine applyEvents_mono rest reg1 m1 reg2 m2 h ev.cat ?_
        rcases applyEv_cases reg m ev reg1 m1 hae with ⟨_, _, hreg, _⟩ | ⟨hhk, hreg, _⟩
        · rw [hreg]
          exact List.mem_append_right _ (List.mem_singleton.mpr rfl)
        · rw [hreg, ← hk]
          exact (hasKey_iff_mem_keysOf m ev.cat).mp hhk
      · exact ih reg1 m1 reg2 m2 hknew h ev hrest

/-- A filter by the same predicate twice is a single filter. -/
theorem filter_idem {α : Type} (p : α → Bool) (l : List α) :
    (l.filter p).filter p = l.filter p := by
  rw [List.filter_filter]
  exact List.filter_congr (fun a _ => by cases p a <;> simp)

/-- `shiftSplice` with a zero line shift: it succeeds when every processed
category is a key of the map, keeps the keys, and filters every processed
category's spans down to those outside the dirty window. -/
theorem shiftSplice_zero_spec : ∀ (cats : List String) (m : DecMap) (s e : Int),
    (∀ c ∈ cats, hasKey m c = true) →
    ∃ m0, shiftSplice m s e 0 cats = some m0 ∧ keysOf m0 = keysOf m ∧
      ∀ c, lookupSpans m0 c =
        if c ∈ cats then
          (lookupSpans m c).filter (fun r => ¬ (r.startLine ≤ e ∧ r.endLine ≥ s))
        else lookupSpans m c := by
  intro cats
  induction cats with
  | nil =>
    intro m s e _
    exact ⟨m, rfl, rfl, fun c => by simp⟩
  | cons c0 rest ih =>
    intro m s e hk
    have hk0 : hasKey m c0 = true := hk c0 (List.mem_cons_self c0 rest)
    obtain ⟨v, hv⟩ : ∃ v, List.lookup c0 m = some v := by
      unfold hasKey at hk0
      cases hl : List.lookup c0 m with
      | none => rw [hl] at hk0; simp at hk0
      | some v => exact ⟨v, rfl⟩
    have hvs : lookupSpans m c0 = v := by
      unfold lookupSpans
      rw [hv]
      rfl
    have hkeys' : keysOf (setKey m c0
        (v.filter (fun r => ¬ (r.startLine ≤ e ∧ r.endLine ≥ s)))) = keysOf m :=
      keysOf_setKey_of_hasKey m c0 _ hk0
    have hk' : ∀ c ∈ rest, hasKey (setKey m c0
        (v.filter (fun r => ¬ (r.startLine ≤ e ∧ r.endLine ≥ s)))) c = true := by
      intro c hc
      rw [hasKey_iff_mem_keysOf, hkeys']
      rw [← hasKey_iff_mem_keysOf]
      exact hk c (List.mem_cons_of_mem c0 hc)
    obtain ⟨m0, hrun, hkeys0, hlk0⟩ := ih _ s e hk'
    refine ⟨m0, ?_, by rw [hkeys0, hkeys'], ?_⟩
    · rw [shiftSplice, hv]
      simp only [ne_eq, not_true_eq_false, if_false, reduceIte]
      exact hrun
    · intro c
      by_cases hc0 : c = c0
      · subst hc0
        by_cases hcr : c ∈ rest
        · rw [hlk0 c, if_pos hcr, if_pos (List.mem_cons_self c rest),
            lookupSpans_setKey_self, hvs, filter_idem]
        · rw [hlk0 c, if_neg hcr, if_pos (List.mem_cons_self c rest),
            lookupSpans_setKey_self, hvs]
      · by_cases hcr : c ∈ rest
        · rw [hlk0 c, if_pos hcr, if_pos (List.mem_cons_of_mem c0 hcr),
            lookupSpans_setKey_ne m c0 c _ hc0]
        · have hnc : ¬ c ∈ c0 :: rest := by
            intro hx
            rcases List.mem_cons.mp hx with hx | hx
            · exact hc0 hx
            · exact hcr hx
          rw [hlk0 c, if_neg hcr, if_neg hnc, lookupSpans_setKey_ne m c0 c _ hc0]

/-- Extracting one line's contribution from the flattened per-line event
lists: filtering the whole pass by category and line number yields exactly
the category filter of that line's own events. -/
theorem flatten_filter_line (F : Nat → List Ev) (c : String) :
    ∀ (len i : Nat), (∀ k, i ≤ k → k < i + len → ∀ ev ∈ F k, ev.line = (k : Int)) →
      ∀ j : Nat,
      ((List.range' i len).map F).flatten.filter
          (fun ev => ev.cat = c ∧ ev.line = (j : Int)) =
        if i ≤ j ∧ j < i + len then (F j).filter (fun ev => ev.cat = c) else [] := by
  intro len
  induction len with
  | zero =>
    intro i _ j
    rw [if_neg (by omega)]
    rfl
  | succ len ih =>
    intro i hF j
    rw [List.range'_succ, List.map_cons, List.flatten_cons, List.filter_append]
    rw [ih (i + 1) (fun k hk1 hk2 => hF k (by omega) (by omega)) j]
    by_cases hj : j = i
    · subst hj
      rw [if_neg (by omega), if_pos (by omega), List.append_nil]
      exact List.filter_congr (fun a ha => by
        have hl := hF j (by omega) (by omega) a ha
        simp [hl])
    · have h1 : (F i).filter (fun ev => ev.cat = c ∧ ev.line = (j : Int)) = [] := by
        rw [List.filter_eq_nil_iff]
        intro a ha
        have hl := hF i (by omega) (by omega) a ha
        simp [hl]
        intro _
        omega
      rw [h1, List.nil_append]
      by_cases h2 : i + 1 ≤ j ∧ j < i + 1 + len
      · rw [if_pos h2, if_pos (by omega)]
      · rw [if_neg h2, if_neg (by omega)]

/-- The per-line, per-category span list a from-scratch pass stores: exactly
the ranges of that line's own events of that category, in emission order. -/
theorem fullPass_spansAtLine (cfg : Config) (reg : List String) (lines : List Str)
    (r : List String) (m : DecMap) (hc : HighlightCache)
    (hrun : decorateFullFile cfg reg lines freshCache = some (r, m, hc)) :
    ∀ (c : String) (j : Nat), j < lines.length →
      spansAtLine m c j =
        ((lineEventsCtx cfg lines j).filter (fun ev => ev.cat = c)).map Ev.toRng := by
  rw [decorateFullFile_full cfg reg lines freshCache (Or.inr rfl)] at hrun
  obtain ⟨⟨r', m'⟩, happ, heq⟩ := Option.map_eq_some'.mp hrun
  injection heq with h1 h23
  injection h23 with h2 h3
  subst h1
  subst h2
  intro c j hj
  obtain ⟨_, hlk⟩ := applyEvents_spec _ reg _ r' m' (keysOf_init reg) happ
  unfold spansAtLine
  rw [hlk c, lookupSpans_init, List.nil_append]
  rw [passEvents_eq cfg lines 0 lines.length le_rfl]
  simp only [Nat.zero_le, if_true]
  rw [List.filter_map, List.filter_filter]
  have hcongr : (((List.range' 0 lines.length).map
        (fun j => lineEventsCtx cfg lines j)).flatten).filter
        (fun a => ((fun r2 => decide (r2.startLine = (j : Int))) ∘ Ev.toRng) a &&
          decide (a.cat = c)) =
      (((List.range' 0 lines.length).map
        (fun j => lineEventsCtx cfg lines j)).flatten).filter
        (fun ev => ev.cat = c ∧ ev.line = (j : Int)) :=
    List.filter_congr (fun a _ => by
      simp [Function.comp, Ev.toRng, Bool.and_comm])
  rw [hcongr]
  rw [flatten_filter_line (fun j2 => lineEventsCtx cfg lines j2) c lines.length 0
    (fun k _ _ => lineEventsCtx_line cfg lines k) j]
  rw [if_pos ⟨by omega, by omega⟩]

/-- One line's contribution to a single pass over `[startN, endN)`: the
category-`c` spans at line `j` are the line's own events when `j` is inside
the pass window and nothing otherwise. -/
theorem passFilterLine (cfg : Config) (L : List Str) (startN endN : Nat)
    (hend : endN ≤ L.length) (c : String) (j : Nat) :
    (((passEvents cfg L startN endN).filter (fun ev => ev.cat = c)).map Ev.toRng).filter
        (fun r => r.startLine = (j : Int)) =
      if startN ≤ j ∧ j < endN then
        ((lineEventsCtx cfg L j).filter (fun ev => ev.cat = c)).map Ev.toRng
      else [] := by
  rw [passEvents_eq cfg L startN endN hend]
  rw [List.filter_map, List.filter_filter]
  have hcongr : (((List.range' 0 endN).map
        (fun j2 => if startN ≤ j2 then lineEventsCtx cfg L j2 else [])).flatten).filter
        (fun a => ((fun r2 => decide (r2.startLine = (j : Int))) ∘ Ev.toRng) a &&
          decide (a.cat = c)) =
      (((List.range' 0 endN).map
        (fun j2 => if startN ≤ j2 then lineEventsCtx cfg L j2 else [])).flatten).filter
        (fun ev => ev.cat = c ∧ ev.line = (j : Int)) :=
    List.filter_congr (fun a _ => by
      simp [Function.comp, Ev.toRng, Bool.and_comm])
  rw [hcongr]
  have hF : ∀ k, 0 ≤ k → k < 0 + endN →
      ∀ ev ∈ (if startN ≤ k then lineEventsCtx cfg L k else []), ev.line = (k : Int) := by
    intro k _ _ ev hev
    by_cases hk : startN ≤ k
    · rw [if_pos hk] at hev
      exact lineEventsCtx_line cfg L k ev hev
    · rw [if_neg hk] at hev
      cases hev
  rw [flatten_filter_line (fun j2 => if startN ≤ j2 then lineEventsCtx cfg L j2 else [])
    c endN 0 hF j]
  by_cases h1 : 0 ≤ j ∧ j < 0 + endN
  · rw [if_pos h1]
    by_cases h2 : startN ≤ j
    · rw [if_pos h2, if_pos ⟨h2, by omega⟩]
    · rw [if_neg h2, if_neg (fun hx => h2 hx.1)]
      rfl
  · rw [if_neg h1, if_neg (by omega)]
    rfl

/-- The adjusted dirty-window top (extension.ts lines 788-790): a positive
accumulated line shift extends the end of the dirty window. -/
def dirtyTop (e : Nat) (shift : Int) : Int :=
  if shift > 0 then (e : Int) + shift else (e : Int)

/-- The adjusted dirty-window bottom (extension.ts lines 791-793): a negative
accumulated line shift pulls the start of the dirty window up. -/
def dirtyBot (s : Nat) (shift : Int) : Int :=
  if shift < 0 then (s : Int) + shift else (s : Int)

/-- The net line-count delta of replacing lines `[s, e]` by `newBlock`. -/
def editShift (s e : Nat) (newBlock : List Str) : Int :=
  (newBlock.length : Int) - ((e : Int) - (s : Int) + 1)

/-- A decoration event without its line number: category and column span. -/
def evSig (ev : Ev) : String × Int × Int := (ev.cat, ev.startC, ev.endC)

/-- The line-relative classification of line `j`: the categories and column
spans of its events, without the absolute line numbers they carry. -/
def lineSig (cfg : Config) (L : List Str) (j : Nat) : List (String × Int × Int) :=
  (lineEventsCtx cfg L j).map evSig

theorem shiftRng_zero (r : Rng) : shiftRng r 0 = r := by
  simp [shiftRng]

theorem getD_of_take_eq (l l' : List Str) (j : Nat)
    (h : l.take (j + 1) = l'.take (j + 1)) : l.getD j [] = l'.getD j [] := by
  have h1 : (l.take (j + 1)).getD j [] = l.getD j [] := by
    show ((l.take (j + 1)).get? j).getD [] = (l.get? j).getD []
    rw [List.get?_take (by omega)]
  have h2 : (l'.take (j + 1)).getD j [] = l'.getD j [] := by
    show ((l'.take (j + 1)).get? j).getD [] = (l'.get? j).getD []
    rw [List.get?_take (by omega)]
  rw [← h1, ← h2, h]

/-- Two documents that agree on their first `j + 1` lines classify line `j`
identically (the cross-line context only reads the preceding lines). -/
theorem lineEventsCtx_of_take_eq (cfg : Config) (l l' : List Str) (j : Nat)
    (h : l.take (j + 1) = l'.take (j + 1)) :
    lineEventsCtx cfg l j = lineEventsCtx cfg l' j := by
  unfold lineEventsCtx
  rw [h, getD_of_take_eq l l' j h]

theorem replaceLines_take (lines newBlock : List Str) (s e k : Nat) (hk : k ≤ s)
    (hs : s ≤ lines.length) :
    (replaceLines lines s e newBlock).take k = lines.take k := by
  unfold replaceLines
  rw [List.append_assoc,
    List.take_append_of_le_length (by rw [List.length_take]; omega),
    List.take_take, min_eq_left hk]

theorem replaceLines_length (lines newBlock : List Str) (s e : Nat) (hse : s ≤ e)
    (he : e < lines.length) :
    ((replaceLines lines s e newBlock).length : Int) =
      (lines.length : Int) + editShift s e newBlock := by
  unfold replaceLines editShift
  simp only [List.length_append, List.length_take, List.length_drop]
  omega

/-- A successful `applyEvents` run keeps the registry duplicate-free (it only
appends categories that are not yet registered). -/
theorem applyEvents_nodup (evs : List Ev) : ∀ (reg : List String) (m : DecMap)
    (reg2 : List String) (m2 : DecMap), reg.Nodup →
    applyEvents reg m evs = some (reg2, m2) → reg2.Nodup := by
  induction evs with
  | nil =>
    intro reg m reg2 m2 hnd h
    obtain ⟨h1, _⟩ : reg = reg2 ∧ m = m2 := by simpa [applyEvents] using h
    exact h1 ▸ hnd
  | cons e rest ih =>
    intro reg m reg2 m2 hnd h
    rw [applyEvents] at h
    cases hae : applyEv reg m e with
    | none => rw [hae] at h; cases h
    | some p =>
      obtain ⟨reg1, m1⟩ := p
      rw [hae] at h
      rcases applyEv_cases reg m e reg1 m1 hae with ⟨hnc, _, hreg, _⟩ | ⟨_, hreg, _⟩
      · refine ih reg1 m1 reg2 m2 ?_ h
        rw [hreg, List.nodup_append]
        refine ⟨hnd, List.nodup_singleton _, fun a ha hb => ?_⟩
        rw [List.mem_singleton] at hb
        exact hnc (hb ▸ ha)
      · exact ih reg1 m1 reg2 m2 (hreg ▸ hnd) h

/-- `shiftSplice` over duplicate-free categories: it succeeds when every
processed category is a key, keeps the keys, and rewrites every processed
category's spans by the source's shift-then-splice transformation. -/
theorem shiftSplice_spec : ∀ (cats : List String) (m : DecMap) (s e shift : Int),
    (∀ c ∈ cats, hasKey m c = true) → cats.Nodup →
    ∃ m0, shiftSplice m s e shift cats = some m0 ∧ keysOf m0 = keysOf m ∧
      ∀ c, lookupSpans m0 c =
        if c ∈ cats then
          ((if shift ≠ 0 then
              (lookupSpans m c).map (fun r =>
                if (if shift > 0 then r.startLine ≥ e - shift else r.startLine ≥ s - shift)
                then shiftRng r shift else r)
            else lookupSpans m c).filter
            (fun r => ¬ (r.startLine ≤ e ∧ r.endLine ≥ s)))
        else lookupSpans m c := by
  intro cats
  induction cats with
  | nil =>
    intro m s e shift _ _
    exact ⟨m, rfl, rfl, fun c => by simp⟩
  | cons c0 rest ih =>
    intro m s e shift hk hnd
    have hk0 : hasKey m c0 = true := hk c0 (List.mem_cons_self c0 rest)
    obtain ⟨v, hv⟩ : ∃ v, List.lookup c0 m = some v := by
      unfold hasKey at hk0
      cases hl : List.lookup c0 m with
      | none => rw [hl] at hk0; simp at hk0
      | some v => exact ⟨v, rfl⟩
    have hvs : lookupSpans m c0 = v := by
      unfold lookupSpans
      rw [hv]
      rfl
    have hc0r : c0 ∉ rest := (List.nodup_cons.mp hnd).1
    have hndr : rest.Nodup := (List.nodup_cons.mp hnd).2
    set w : List Rng :=
      ((if shift ≠ 0 then
          v.map (fun r =>
            if (if shift > 0 then r.startLine ≥ e - shift else r.startLine ≥ s - shift)
            then shiftRng r shift else r)
        else v).filter (fun r => ¬ (r.startLine ≤ e ∧ r.endLine ≥ s))) with hw
    have hkeys' : keysOf (setKey m c0 w) = keysOf m := keysOf_setKey_of_hasKey m c0 _ hk0
    have hk' : ∀ c ∈ rest, hasKey (setKey m c0 w) c = true := by
      intro c hc
      rw [hasKey_iff_mem_keysOf, hkeys', ← hasKey_iff_mem_keysOf]
      exact hk c (List.mem_cons_of_mem c0 hc)
    obtain ⟨m0, hrun, hkeys0, hlk0⟩ := ih (setKey m c0 w) s e shift hk' hndr
    refine ⟨m0, ?_, by rw [hkeys0, hkeys'], ?_⟩
    · rw [shiftSplice, hv]
      exact hrun
    · intro c
      by_cases hc0 : c = c0
      · subst hc0
        rw [hlk0 c, if_neg hc0r, if_pos (List.mem_cons_self c rest),
          lookupSpans_setKey_self, hw, hvs]
      · by_cases hcr : c ∈ rest
        · rw [hlk0 c, if_pos hcr, if_pos (List.mem_cons_of_mem c0 hcr),
            lookupSpans_setKey_ne m c0 c _ hc0]
        · have hnc : ¬ c ∈ c0 :: rest := by
            intro hx
            rcases List.mem_cons.mp hx with hx | hx
            · exact hc0 hx
            · exact hcr hx
          rw [hlk0 c, if_neg hcr, if_neg hnc, lookupSpans_setKey_ne m c0 c _ hc0]

/-- Transport of per-category span lists along a line-signature equality:
if two lines classify identically up to their line number, the ranges their
category-`c` events produce agree once both are placed at line `b`. -/
theorem sig_eq_spans (b : Int) (c : String) : ∀ (l2 l1 : List Ev),
    l2.map evSig = l1.map evSig → (∀ ev ∈ l2, ev.line = b) →
    (l1.filter (fun ev => ev.cat = c)).map
        (fun ev => (⟨b, ev.startC, b, ev.endC⟩ : Rng)) =
      (l2.filter (fun ev => ev.cat = c)).map Ev.toRng := by
  intro l2
  induction l2 with
  | nil =>
    intro l1 hsig _
    cases l1 with
    | nil => rfl
    | cons a t => simp [evSig] at hsig
  | cons ev2 t2 ih =>
    intro l1 hsig h2
    cases l1 with
    | nil => simp [evSig] at hsig
    | cons ev1 t1 =>
      simp only [List.map_cons, List.cons.injEq] at hsig
      obtain ⟨hhead, htail⟩ := hsig
      have hcat : ev2.cat = ev1.cat := congrArg (fun p => p.1) hhead
      have hsc : ev2.startC = ev1.startC := congrArg (fun p => p.2.1) hhead
      have hec : ev2.endC = ev1.endC := congrArg (fun p => p.2.2) hhead
      have hline : ev2.line = b := h2 ev2 (List.mem_cons_self ev2 t2)
      have ihp := ih t1 htail (fun ev hev => h2 ev (List.mem_cons_of_mem ev2 hev))
      by_cases hc : ev1.cat = c
      · rw [List.filter_cons_of_pos (by simp [hc]),
          List.filter_cons_of_pos (by simp [hcat, hc]),
          List.map_cons, List.map_cons, ihp]
        congr 1
        simp [Ev.toRng, hline, hsc, hec]
      · rw [List.filter_cons_of_neg (by simp [hc]),
          List.filter_cons_of_neg (by simp [hcat, hc])]
        exact ihp

/-- Events of any sub-window pass occur in the full pass over the document. -/
theorem passEvents_sub (cfg : Config) (L : List Str) (a b : Nat) (hb : b ≤ L.length) :
    ∀ ev ∈ passEvents cfg L a b, ev ∈ passEvents cfg L 0 L.length := by
  intro ev hev
  rw [passEvents_eq cfg L a b hb] at hev
  rw [passEvents_eq cfg L 0 L.length le_rfl]
  simp only [Nat.zero_le, if_true]
  rw [List.mem_flatten] at hev ⊢
  obtain ⟨l, hl, hevl⟩ := hev
  rw [List.mem_map] at hl
  obtain ⟨jj, hjj, rfl⟩ := hl
  rw [List.mem_range'_1] at hjj
  by_cases hsj : a ≤ jj
  · rw [if_pos hsj] at hevl
    exact ⟨lineEventsCtx cfg L jj,
      List.mem_map.mpr ⟨jj, List.mem_range'_1.mpr ⟨by omega, by omega⟩, rfl⟩, hevl⟩
  · rw [if_neg hsj] at hevl
    cases hevl

/-- The incremental path of `decorateFullFile` on a dirty cache with spans
present: shift-and-splice the cached spans, then re-run the pass over the
adjusted dirty window (the `needRefreshStartLine == -1` recheck of lines
816-817 is excluded by `hbot`). -/
theorem decorateFullFile_incr (cfg : Config) (reg : List String) (L : List Str)
    (s e : Nat) (sh : Int) (m1 : DecMap) (hne : m1.isEmpty = false)
    (hbot : dirtyBot s sh ≠ -1) :
    decorateFullFile cfg reg L ⟨(s : Int), (e : Int), sh, m1⟩ =
      match shiftSplice m1 (dirtyBot s sh) (dirtyTop e sh) sh reg with
      | none => none
      | some m0 =>
        (applyEvents reg m0 (passEvents cfg L (dirtyBot s sh).toNat
          ((min (dirtyTop e sh + 1) (L.length : Int)).toNat))).map
          (fun p => (p.1, p.2, ⟨-1, -1, 0, p.2⟩)) := by
  unfold decorateFullFile
  have hsne : ¬ ((s : Int) = -1) := by omega
  simp only [hne, Bool.false_eq_true, if_false, List.isEmpty_eq_false, hsne,
    gt_iff_lt]
  rw [show (if sh < 0 then (s : Int) + sh else (s : Int)) = dirtyBot s sh from rfl,
    show (if 0 < sh then (e : Int) + sh else (e : Int)) = dirtyTop e sh from rfl,
    if_neg hbot]

/-- The example document for the C1 counterexample, before the edit. -/
def c1DocA : List Str := [str "a:", str "- k <j>"]

/-- The edited document: line 0 was replaced by `lore:` (same line count). -/
def c1DocB : List Str := [str "lore:", str "- k <j>"]

/-- The state after the initial full pass over the original document. -/
def c1First : List String × DecMap × HighlightCache :=
  (decorateFullFile cfgDefault colorTypesL c1DocA freshCache).getD ([], [], freshCache)

/-- The incremental re-run over the edited document: the edit is reported as
replacing line range `[0, 0]` with zero line shift. -/
def c1Incr : List String × DecMap × HighlightCache :=
  (decorateFullFile cfgDefault c1First.1 c1DocB
    (applyEditToCache c1First.2.2 0 0 0)).getD ([], [], freshCache)

/-- The from-scratch pass over the edited document. -/
def c1Scratch : List String × DecMap × HighlightCache :=
  (decorateFullFile cfgDefault colorTypesL c1DocB freshCache).getD ([], [], freshCache)

/-- Counterexample to C1 as stated: editing line 0 from `a:` to `lore:` turns
line 1 (`- k <j>`) into data-block content, but the incremental path only
re-classifies lines `[0, 0]` and keeps line 1's stale `command` span, while
the from-scratch pass emits none — the per-category span sets differ at
line 1 even though every pass succeeds. -/
theorem C1_counterexample :
    (decorateFullFile cfgDefault colorTypesL c1DocA freshCache).isSome = true ∧
    (decorateFullFile cfgDefault c1First.1 c1DocB
      (applyEditToCache c1First.2.2 0 0 0)).isSome = true ∧
    (decorateFullFile cfgDefault colorTypesL c1DocB freshCache).isSome = true ∧
    spansAtLine c1Incr.2.1 "command" 1 ≠ spansAtLine c1Scratch.2.1 "command" 1 := by
  decide

/-- Every event of one line of a document occurs in the full pass over it. -/
theorem lineEvents_mem_pass (cfg : Config) (L : List Str) (j : Nat) (hj : j < L.length) :
    ∀ ev ∈ lineEventsCtx cfg L j, ev ∈ passEvents cfg L 0 L.length := by
  intro ev hev
  rw [passEvents_eq cfg L 0 L.length le_rfl]
  simp only [Nat.zero_le, if_true]
  rw [List.mem_flatten]
  exact ⟨lineEventsCtx cfg L j,
    List.mem_map.mpr ⟨j, List.mem_range'_1.mpr ⟨by omega, by omega⟩, rfl⟩, hev⟩

set_option maxHeartbeats 2000000 in
/-- C1 (amended): incremental equivalence holds only when the edit does not
change the line-relative classification of any line outside the adjusted
dirty window (the cross-line context — last block key and data mode — that
the edited lines feed into later lines must be preserved, which the general
claim wrongly takes for granted).  Under that hypothesis, for an edit
replacing lines `[s, e]` by a new block — with any line-count delta, the
cached spans below the window translated by the accumulated shift — applied
to a clean cache (and the adjusted window start not landing on the `-1`
full-refresh sentinel), the incremental path succeeds and produces, for
every category and every line of the edited document, exactly the spans of
a from-scratch pass over it. -/
theorem C1_amended_incremental (cfg : Config) (reg : List String)
    (lines newBlock : List Str) (s e : Nat)
    (r1 : List String) (m1 : DecMap) (hc1 : HighlightCache)
    (hse : s ≤ e) (he : e < lines.length)
    (hreg : reg ≠ []) (hnd : reg.Nodup)
    (hbot : dirtyBot s (editShift s e newBlock) ≠ -1)
    (hrun1 : decorateFullFile cfg reg lines freshCache = some (r1, m1, hc1))
    (hsame : ∀ j : Nat, j < (replaceLines lines s e newBlock).length →
      dirtyTop e (editShift s e newBlock) < (j : Int) →
      lineSig cfg (replaceLines lines s e newBlock) j =
        lineSig cfg lines ((j : Int) - editShift s e newBlock).toNat)
    (hinreg : ∀ ev ∈ passEvents cfg (replaceLines lines s e newBlock) 0
        (replaceLines lines s e newBlock).length,
      ev.cat ∈ reg ∨ isAuto ev.cat = true) :
    ∃ r2 m2 hc2 r3 m3 hc3,
      decorateFullFile cfg r1 (replaceLines lines s e newBlock)
        (applyEditToCache hc1 s e (editShift s e newBlock)) = some (r2, m2, hc2) ∧
      decorateFullFile cfg reg (replaceLines lines s e newBlock) freshCache =
        some (r3, m3, hc3) ∧
      ∀ (c : String) (j : Nat), j < (replaceLines lines s e newBlock).length →
        spansAtLine m2 c j = spansAtLine m3 c j := by
  set sh := editShift s e newBlock with hshdef
  set L' := replaceLines lines s e newBlock with hLdef
  have hS1v : (sh < 0 ∧ dirtyBot s sh = (s : Int) + sh) ∨
      (0 ≤ sh ∧ dirtyBot s sh = (s : Int)) := by
    unfold dirtyBot
    by_cases h : sh < 0
    · rw [if_pos h]; exact Or.inl ⟨h, rfl⟩
    · rw [if_neg h]; exact Or.inr ⟨by omega, rfl⟩
  have hE1v : (0 < sh ∧ dirtyTop e sh = (e : Int) + sh) ∨
      (sh ≤ 0 ∧ dirtyTop e sh = (e : Int)) := by
    unfold dirtyTop
    by_cases h : 0 < sh
    · rw [if_pos h]; exact Or.inl ⟨h, rfl⟩
    · rw [if_neg h]; exact Or.inr ⟨by omega, rfl⟩
  have hτv : (0 < sh ∧ (if 0 < sh then (e : Int) else (s : Int)) = (e : Int)) ∨
      (sh ≤ 0 ∧ (if 0 < sh then (e : Int) else (s : Int)) = (s : Int)) := by
    by_cases h : 0 < sh
    · rw [if_pos h]; exact Or.inl ⟨h, rfl⟩
    · rw [if_neg h]; exact Or.inr ⟨by omega, rfl⟩
  have hlenL' : (L'.length : Int) = (lines.length : Int) + sh := by
    rw [hLdef, hshdef]
    exact replaceLines_length lines newBlock s e hse he
  have hfirstSpans := fullPass_spansAtLine cfg reg lines r1 m1 hc1 hrun1
  rw [decorateFullFile_full cfg reg lines freshCache (Or.inr rfl)] at hrun1
  obtain ⟨⟨r1x, m1x⟩, happ1, heq1⟩ := Option.map_eq_some'.mp hrun1
  injection heq1 with h1 h23
  injection h23 with h2 h3
  subst h1
  subst h2
  subst h3
  obtain ⟨hk1, hlk1⟩ := applyEvents_spec _ reg _ r1x m1x (keysOf_init reg) happ1
  have hregr1 : ∀ cc ∈ reg, cc ∈ r1x := applyEvents_mono _ reg _ r1x m1x happ1
  have hevreg1 : ∀ ev ∈ passEvents cfg lines 0 lines.length, ev.cat ∈ r1x :=
    applyEvents_events_reg _ reg _ r1x m1x (keysOf_init reg) happ1
  have hndr1 : r1x.Nodup := applyEvents_nodup _ reg _ r1x m1x hnd happ1
  have hm1ne : m1x.isEmpty = false := by
    cases hm : m1x with
    | nil =>
      exfalso
      obtain ⟨c0, hc0⟩ := List.exists_mem_of_ne_nil reg hreg
      have hmem := hregr1 c0 hc0
      rw [← hk1, hm] at hmem
      simp [keysOf] at hmem
    | cons a l => rfl
  have hcache : applyEditToCache ⟨-1, -1, 0, m1x⟩ (s : Int) (e : Int) sh =
      ⟨(s : Int), (e : Int), sh, m1x⟩ := by
    simp [applyEditToCache]
  have hkm1 : ∀ cc ∈ r1x, hasKey m1x cc = true := by
    intro cc hcc
    rw [hasKey_iff_mem_keysOf, hk1]
    exact hcc
  obtain ⟨m0, hsplice, hkeys0, hlk0⟩ :=
    shiftSplice_spec r1x m1x (dirtyBot s sh) (dirtyTop e sh) sh hkm1 hndr1
  have hendle : ((min (dirtyTop e sh + 1) (L'.length : Int)).toNat) ≤ L'.length := by
    omega
  have hwin_reg : ∀ ev ∈ passEvents cfg L' (dirtyBot s sh).toNat
      ((min (dirtyTop e sh + 1) (L'.length : Int)).toNat),
      ev.cat ∈ r1x ∨ isAuto ev.cat = true := by
    intro ev hev
    rcases hinreg ev (passEvents_sub cfg L' _ _ hendle ev hev) with h | h
    · exact Or.inl (hregr1 _ h)
    · exact Or.inr h
  obtain ⟨⟨r2, m2⟩, happ2⟩ := applyEvents_total _ r1x m0 (by rw [hkeys0, hk1]) hwin_reg
  obtain ⟨hk2, hlk2⟩ := applyEvents_spec _ r1x m0 r2 m2 (by rw [hkeys0, hk1]) happ2
  have hrun2 : decorateFullFile cfg r1x L'
      (applyEditToCache ⟨-1, -1, 0, m1x⟩ (s : Int) (e : Int) sh) =
      some (r2, m2, ⟨-1, -1, 0, m2⟩) := by
    rw [hcache, decorateFullFile_incr cfg r1x L' s e sh m1x hm1ne hbot, hsplice]
    show (applyEvents r1x m0 (passEvents cfg L' (dirtyBot s sh).toNat
        ((min (dirtyTop e sh + 1) (L'.length : Int)).toNat))).map
        (fun p => (p.1, p.2, (⟨-1, -1, 0, p.2⟩ : HighlightCache))) =
      some (r2, m2, ⟨-1, -1, 0, m2⟩)
    rw [happ2]
    rfl
  obtain ⟨⟨r3, m3⟩, happ3⟩ := applyEvents_total (passEvents cfg L' 0 L'.length) reg _
    (keysOf_init reg) hinreg
  have hrun3 : decorateFullFile cfg reg L' freshCache =
      some (r3, m3, ⟨-1, -1, 0, m3⟩) := by
    rw [decorateFullFile_full cfg reg L' freshCache (Or.inr rfl), happ3]
    rfl
  have hscratchSpans := fullPass_spansAtLine cfg reg L' r3 m3 _ hrun3
  refine ⟨r2, m2, ⟨-1, -1, 0, m2⟩, r3, m3, ⟨-1, -1, 0, m3⟩, hrun2, hrun3, ?_⟩
  intro c j hj
  rw [hscratchSpans c j hj]
  unfold spansAtLine
  rw [hlk2 c, List.filter_append]
  have hB := passFilterLine cfg L' (dirtyBot s sh).toNat
    ((min (dirtyTop e sh + 1) (L'.length : Int)).toNat) hendle c j
  by_cases hw : (dirtyBot s sh).toNat ≤ j ∧
      j < (min (dirtyTop e sh + 1) (L'.length : Int)).toNat
  · have hA : (lookupSpans m0 c).filter (fun r => r.startLine = (j : Int)) = [] := by
      rw [hlk0 c]
      by_cases hcr : c ∈ r1x
      · rw [if_pos hcr, List.filter_filter, List.filter_eq_nil_iff]
        intro r hr
        have hsl : r.endLine = r.startLine := by
          by_cases hh : sh ≠ 0
          · rw [if_pos hh] at hr
            obtain ⟨r0, hr0, rfl⟩ := List.mem_map.mp hr
            have h0 : r0.endLine = r0.startLine := by
              rw [hlk1 c, lookupSpans_init, List.nil_append] at hr0
              obtain ⟨ev, _, rfl⟩ := List.mem_map.mp hr0
              rfl
            by_cases hcnd : (if sh > 0 then r0.startLine ≥ dirtyTop e sh - sh
                else r0.startLine ≥ dirtyBot s sh - sh)
            · rw [if_pos hcnd]
              simp [shiftRng, h0]
            · rw [if_neg hcnd]
              exact h0
          · rw [if_neg hh] at hr
            rw [hlk1 c, lookupSpans_init, List.nil_append] at hr
            obtain ⟨ev, _, rfl⟩ := List.mem_map.mp hr
            rfl
        simp only [Bool.and_eq_true, decide_eq_true_eq]
        rintro ⟨hpj, hg⟩
        rw [hsl] at hg
        omega
      · rw [if_neg hcr]
        have hm1c : lookupSpans m1x c = [] := by
          refine lookupSpans_nil_of_not_hasKey m1x c ?_
          cases hb : hasKey m1x c with
          | false => rfl
          | true => exact absurd (hk1 ▸ (hasKey_iff_mem_keysOf m1x c).mp hb) hcr
        rw [hm1c]
        rfl
    rw [hA, List.nil_append, hB, if_pos hw]
  · rw [hB, if_neg hw, List.append_nil]
    obtain ⟨ioldN, hioN, hioldlt, hsig⟩ :
        ∃ k : Nat, ((k : Int) = if (j : Int) < dirtyBot s sh then (j : Int)
            else (j : Int) - sh) ∧ k < lines.length ∧
          (lineEventsCtx cfg L' j).map evSig = (lineEventsCtx cfg lines k).map evSig := by
      by_cases hjlow : (j : Int) < dirtyBot s sh
      · refine ⟨j, by rw [if_pos hjlow], by omega, ?_⟩
        have hpre : L'.take (j + 1) = lines.take (j + 1) := by
          rw [hLdef]
          exact replaceLines_take lines newBlock s e (j + 1) (by omega) (by omega)
        rw [lineEventsCtx_of_take_eq cfg L' lines j hpre]
      · have hhi : dirtyTop e sh < (j : Int) := by omega
        refine ⟨((j : Int) - sh).toNat, by rw [if_neg hjlow]; omega, by omega, ?_⟩
        have hs := hsame j hj hhi
        simpa [lineSig] using hs
    have hioCase : ((j : Int) < dirtyBot s sh ∧ (ioldN : Int) = (j : Int)) ∨
        (¬ (j : Int) < dirtyBot s sh ∧ (ioldN : Int) = (j : Int) - sh) := by
      by_cases hh : (j : Int) < dirtyBot s sh
      · exact Or.inl ⟨hh, by rw [hioN, if_pos hh]⟩
      · exact Or.inr ⟨hh, by rw [hioN, if_neg hh]⟩
    by_cases hcr : c ∈ r1x
    · rw [hlk0 c, if_pos hcr]
      have hM : (if sh ≠ 0 then
            (lookupSpans m1x c).map (fun r =>
              if (if sh > 0 then r.startLine ≥ dirtyTop e sh - sh
                  else r.startLine ≥ dirtyBot s sh - sh)
              then shiftRng r sh else r)
          else lookupSpans m1x c) =
          (lookupSpans m1x c).map (fun r =>
            if r.startLine ≥ (if 0 < sh then (e : Int) else (s : Int))
            then shiftRng r sh else r) := by
        by_cases hh : sh = 0
        · rw [if_neg (by omega)]
          have hid : ∀ r ∈ lookupSpans m1x c,
              (if r.startLine ≥ (if 0 < sh then (e : Int) else (s : Int))
               then shiftRng r sh else r) = r := by
            intro r _
            by_cases hc2 : r.startLine ≥ (if 0 < sh then (e : Int) else (s : Int))
            · rw [if_pos hc2, hh, shiftRng_zero]
            · rw [if_neg hc2]
          rw [List.map_congr_left hid, List.map_id']
        · rw [if_pos hh]
          refine List.map_congr_left (fun r _ => ?_)
          by_cases hpos : sh > 0
          · have h1 : dirtyTop e sh - sh = (e : Int) := by
              unfold dirtyTop
              rw [if_pos hpos]
              ring
            exact if_congr (by rw [if_pos hpos, if_pos hpos, h1]) rfl rfl
          · have h1 : dirtyBot s sh - sh = (s : Int) := by
              unfold dirtyBot
              rw [if_pos (by omega : sh < 0)]
              ring
            exact if_congr (by rw [if_neg hpos, if_neg hpos, h1]) rfl rfl
      rw [hM, List.filter_filter, hlk1 c, lookupSpans_init, List.nil_append,
        List.map_map, List.filter_map, List.filter_filter]
      have hcngr : List.filter (fun ev =>
            ((fun r => decide (r.startLine = (j : Int)) &&
              decide (¬ (r.startLine ≤ dirtyTop e sh ∧ r.endLine ≥ dirtyBot s sh))) ∘
              ((fun r => if r.startLine ≥ (if 0 < sh then (e : Int) else (s : Int))
                then shiftRng r sh else r) ∘ Ev.toRng)) ev && decide (ev.cat = c))
            (passEvents cfg lines 0 lines.length) =
          List.filter (fun ev => ev.cat = c ∧ ev.line = (ioldN : Int))
            (passEvents cfg lines 0 lines.length) := by
        refine List.filter_congr (fun ev _ => ?_)
        simp only [Function.comp, Ev.toRng]
        by_cases hτe : ev.line ≥ (if 0 < sh then (e : Int) else (s : Int))
        · rw [if_pos hτe]
          simp only [shiftRng, ← Bool.decide_and, decide_eq_decide]
          by_cases hcs : ev.cat = c
          · simp only [hcs, and_true, true_and]
            omega
          · simp [hcs]
        · rw [if_neg hτe]
          simp only [← Bool.decide_and, decide_eq_decide]
          by_cases hcs : ev.cat = c
          · simp only [hcs, and_true, true_and]
            omega
          · simp [hcs]
      rw [hcngr, passEvents_eq cfg lines 0 lines.length le_rfl]
      simp only [Nat.zero_le, if_true]
      rw [flatten_filter_line (fun j2 => lineEventsCtx cfg lines j2) c lines.length 0
        (fun k _ _ => lineEventsCtx_line cfg lines k) ioldN]
      rw [if_pos (show 0 ≤ ioldN ∧ ioldN < 0 + lines.length from ⟨by omega, by omega⟩)]
      have hφ : ∀ ev ∈ (lineEventsCtx cfg lines ioldN).filter (fun ev => ev.cat = c),
          ((fun r => if r.startLine ≥ (if 0 < sh then (e : Int) else (s : Int))
            then shiftRng r sh else r) ∘ Ev.toRng) ev =
          (⟨(j : Int), ev.startC, (j : Int), ev.endC⟩ : Rng) := by
        intro ev hev
        have hln : ev.line = (ioldN : Int) :=
          lineEventsCtx_line cfg lines ioldN ev (List.mem_of_mem_filter hev)
        simp only [Function.comp, Ev.toRng]
        by_cases hτe : ev.line ≥ (if 0 < sh then (e : Int) else (s : Int))
        · rw [if_pos hτe]
          have hjv : ev.line + sh = (j : Int) := by omega
          simp only [shiftRng]
          rw [hjv]
        · rw [if_neg hτe]
          have hjv : ev.line = (j : Int) := by omega
          rw [hjv]
      rw [List.map_congr_left hφ]
      exact sig_eq_spans (j : Int) c (lineEventsCtx cfg L' j)
        (lineEventsCtx cfg lines ioldN) hsig (lineEventsCtx_line cfg L' j)
    · rw [hlk0 c, if_neg hcr]
      have hm1c : lookupSpans m1x c = [] := by
        refine lookupSpans_nil_of_not_hasKey m1x c ?_
        cases hb : hasKey m1x c with
        | false => rfl
        | true => exact absurd (hk1 ▸ (hasKey_iff_mem_keysOf m1x c).mp hb) hcr
      rw [hm1c]
      simp only [List.filter_nil]
      have hnil1 : (lineEventsCtx cfg lines ioldN).filter (fun ev => ev.cat = c) = [] := by
        rw [List.filter_eq_nil_iff]
        intro ev hev
        have hevr : ev.cat ∈ r1x :=
          hevreg1 ev (lineEvents_mem_pass cfg lines ioldN hioldlt ev hev)
        simp only [decide_eq_true_eq]
        intro hcc
        exact hcr (hcc ▸ hevr)
      have hz := sig_eq_spans (j : Int) c (lineEventsCtx cfg L' j)
        (lineEventsCtx cfg lines ioldN) hsig (lineEventsCtx_line cfg L' j)
      rw [hnil1] at hz
      simpa using hz

/-- Witness for C9: on the document `["a:"]` with the standard categories
registered, the first full pass succeeds, and re-running on its resulting
clean cache reproduces the same per-category span set. -/
theorem C9_witness :
    ∃ r2 m2 hc2,
      decorateFullFile cfgDefault colorTypesL [str "a:"] ⟨-1, -1, 0, C9map⟩ =
        some (r2, m2, hc2) ∧
      ∀ c, lookupSpans m2 c = lookupSpans C9map c :=
  C9_idempotence cfgDefault colorTypesL [str "a:"] colorTypesL C9map ⟨-1, -1, 0, C9map⟩
    (by decide)

/-- The span map the initial pass computes for the document
`["a:", "- b c"]` (used as the cached state in the C1 witness). -/
def c1wM1 : DecMap := colorTypesL.map (fun c =>
  (c, if c = "key" then [⟨0, 0, 0, 1⟩]
      else if c = "command" then [⟨1, 2, 1, 3⟩]
      else if c = "space" then [⟨1, 3, 1, 4⟩]
      else if c = "normal" then [⟨1, 0, 1, 1⟩, ⟨1, 3, 1, 3⟩, ⟨1, 4, 1, 5⟩]
      else if c = "colons" then [⟨0, 1, 0, 2⟩]
      else []))

/-- Witness for the amended C1: replacing line 0 of `["a:", "- b c"]` by
the two lines `x:`, `y:` — an insertion with line shift `+1` that keeps the
line-relative classification of the untouched `- b c` line — the
incremental path (cached spans shifted down by one line, dirty window
`[0, 1]` re-scanned) succeeds and agrees with a from-scratch pass on every
category and line of the edited document. -/
theorem C1_witness :
    ∃ r2 m2 hc2 r3 m3 hc3,
      decorateFullFile cfgDefault colorTypesL
        (replaceLines [str "a:", str "- b c"] 0 0 [str "x:", str "y:"])
        (applyEditToCache ⟨-1, -1, 0, c1wM1⟩ 0 0
          (editShift 0 0 [str "x:", str "y:"])) = some (r2, m2, hc2) ∧
      decorateFullFile cfgDefault colorTypesL
        (replaceLines [str "a:", str "- b c"] 0 0 [str "x:", str "y:"]) freshCache =
        some (r3, m3, hc3) ∧
      ∀ (c : String) (j : Nat),
        j < (replaceLines [str "a:", str "- b c"] 0 0 [str "x:", str "y:"]).length →
          spansAtLine m2 c j = spansAtLine m3 c j :=
  C1_amended_incremental cfgDefault colorTypesL [str "a:", str "- b c"]
    [str "x:", str "y:"] 0 0 colorTypesL c1wM1 ⟨-1, -1, 0, c1wM1⟩
    (by decide) (by decide) (by decide) (by decide) (by decide) (by decide)
    (by decide) (by decide)

end Denizen
